import Mathlib

/-!
# coralreefci: assignee recommendation core

A shallow embedding of `models/bhattacharya/toss.go` (`BuildProfiles`,
`profileFilter`, `Tossing`) and `models/fold.go` (`FoldImplementation`,
`JohnFold`, `TwoFold`, `TenFold`) and of the payload encoding of
`pipeline/ingestor/database.go` (`stripCtlAndExtFromBytes`,
`escapeBytesBackslash`), with the properties the specification states about
them.

Conventions of the embedding:

* a Go slice is a `List`: the slices these functions append to are taken
  not to share a backing array with another slice that is read later; the one
  `append` that writes into the array of a slice still in use, line 47 of
  fold.go, is modelled on the array itself (`tenFoldLoop`);
* a Go map is the list of its entries, one entry per key under Go's `==`;
  the order in which a `range` loop visits the entries is not fixed by the
  language, so every such loop takes the visiting order as an argument;
* a run-time panic is an `Except.error`;
* the float64 variable of a `for` loop is modelled bit by bit, since its
  rounding decides how many rounds the loop runs; sums and quotients of
  scores are taken exactly.
-/

namespace CoralReef

/-! ## Run-time faults -/

/-- The ways in which the embedded code can stop without returning. -/
inductive Fault where
  /-- An index expression `s[i]` with `i` outside `0 ≤ i < len(s)`. -/
  | indexOutOfRange
  /-- A dereference `*p` or field access through a nil pointer. -/
  | nilDereference
  /-- The call `utils.ModelSummary.Panic(err)` after `BuildMatrix` failed. -/
  | matrixPanic
  /-- A slice expression `s[lo:hi]` with bounds outside `0 ≤ lo ≤ hi ≤ len(s)`. -/
  | sliceOutOfRange
  deriving DecidableEq, Repr

/-- Results of the embedded code can be compared by evaluation. -/
instance instDecidableEqExcept {ε β : Type} [DecidableEq ε] [DecidableEq β] :
    DecidableEq (Except ε β)
  | .ok a, .ok b =>
    if h : a = b then isTrue (by rw [h]) else isFalse (fun h' => h (Except.ok.inj h'))
  | .error a, .error b =>
    if h : a = b then isTrue (by rw [h]) else isFalse (fun h' => h (Except.error.inj h'))
  | .ok _, .error _ => isFalse (fun h => Except.noConfusion h)
  | .error _, .ok _ => isFalse (fun h => Except.noConfusion h)

/-! ## float64 values -/

/-- A `float64` as the code observes it: the code only compares scores with
`<` and `==` and tests for NaN, it never does arithmetic on them.  The values
that are not NaN, with `+0` and `-0` identified (Go's `==` and `<` do not
tell them apart), form a linear order `α`; every NaN behaves alike. -/
inductive Float64 (α : Type) where
  | NaN : Float64 α
  | val : α → Float64 α
  deriving DecidableEq, Repr

namespace Float64

variable {α : Type} [LinearOrder α]

/-- The test `math.IsNaN` (`x != x`). -/
def isNaN : Float64 α → Bool
  | NaN => true
  | val _ => false

/-- Go's `x < y` on float64: false as soon as one side is NaN. -/
def lt : Float64 α → Float64 α → Bool
  | val a, val b => decide (a < b)
  | _, _ => false

/-- Go's `x == y` on float64, which is also the equality a map with float64
keys uses: NaN is equal to nothing, itself included. -/
def eq : Float64 α → Float64 α → Bool
  | val a, val b => decide (a = b)
  | _, _ => false

/-- The method `sort.Float64Slice.Less`:
`x[i] < x[j] || (isNaN(x[i]) && !isNaN(x[j]))`. -/
def less (x y : Float64 α) : Bool :=
  lt x y || (isNaN x && !isNaN y)

/-- The order `sort.Reverse(sort.Float64Slice(..))` sorts into: `x` may stand
before `y` when `Reverse.Less(y, x)`, which is `Less(x, y)`, is false. -/
def revLE (x y : Float64 α) : Prop :=
  less x y = false

instance : DecidableRel (revLE (α := α)) :=
  fun x y => inferInstanceAs (Decidable (less x y = false))

instance : IsTotal (Float64 α) revLE where
  total x y := by
    cases x <;> cases y <;> simp [revLE, less, lt, isNaN]
    exact le_total _ _

instance : IsTrans (Float64 α) revLE where
  trans x y z h₁ h₂ := by
    cases x <;> cases y <;> cases z <;> simp_all [revLE, less, lt, isNaN]
    exact le_trans h₂ h₁

instance : IsAntisymm (Float64 α) revLE where
  antisymm x y h₁ h₂ := by
    cases x <;> cases y <;> simp_all [revLE, less, lt, isNaN]
    exact le_antisymm h₂ h₁

end Float64

/-! ## Go maps -/

section GoMap

variable {κ ν : Type}

/-- The assignment `m[k] = v`: the entry whose key is `==` to `k` gets the
new value, and when there is none a new entry is added. -/
def mapAssign (eq : κ → κ → Bool) : List (κ × ν) → κ → ν → List (κ × ν)
  | [], k, v => [(k, v)]
  | (k', v') :: m, k, v =>
    if eq k' k then (k', v) :: m else (k', v') :: mapAssign eq m k v

/-- The lookup `v, ok := m[k]`: `some v` when `ok`, `none` otherwise. -/
def mapLookup (eq : κ → κ → Bool) : List (κ × ν) → κ → Option ν
  | [], _ => none
  | (k', v') :: m, k => if eq k' k then some v' else mapLookup eq m k

/-- The entries of `m` in the order a `range m` loop visits them when it
takes the entries at positions `ord`.  A run of the program visits every
entry once: `ord` is then a permutation of `0 .. len(m) - 1`. -/
def rangeVisit (m : List (κ × ν)) (ord : List Nat) : List (κ × ν) :=
  ord.filterMap (fun i => m[i]?)

/-- The visiting orders a `range` loop over a map of `n` entries can take. -/
def RangeOrder (n : Nat) (ord : List Nat) : Prop :=
  ord.Perm (List.range n)

instance (n : Nat) (ord : List Nat) : Decidable (RangeOrder n ord) :=
  inferInstanceAs (Decidable (ord.Perm (List.range n)))

end GoMap

/-! ## `Tossing` (toss.go, lines 60-89) -/

section Tossing

variable {α : Type} [LinearOrder α]

/-- Lines 61-64: `scoreMap[i] = scores[i]` for `i = 0 .. len(scores) - 1`. -/
def buildScoreMap (scores : List (Float64 α)) : List (Nat × Float64 α) :=
  scores.enum.foldl (fun m e => mapAssign (fun i j => decide (i = j)) m e.1 e.2) []

/-- Line 71: `sort.Sort(sort.Reverse(sort.Float64Slice(scoreValues)))`.
The library sort is not stable, but two values that `Less` does not separate
are the same value here, so the sorted slice does not depend on the sorting
algorithm (`sortReverse_unique`). -/
def sortReverse (xs : List (Float64 α)) : List (Float64 α) :=
  xs.insertionSort Float64.revLE

/-- Lines 73-76: `flipScoreMap[floater] = integer` for the entries of
`scoreMap` in the order the `range` loop visits them. -/
def buildFlipScoreMap (visited : List (Nat × Float64 α)) : List (Float64 α × Nat) :=
  visited.foldl (fun m e => mapAssign Float64.eq m e.2 e.1) []

/-- Lines 83-87: the loop `for i := 0; i < top; i++`, started at `i` with
`n` rounds to go and `topIndex` collected so far. -/
def tossLoop (scoreValues : List (Float64 α)) (flipScoreMap : List (Float64 α × Nat)) :
    Nat → Nat → List Nat → Except Fault (List Nat)
  | 0, _, topIndex => .ok topIndex
  | n + 1, i, topIndex =>
    match scoreValues[i]? with
    | none => .error Fault.indexOutOfRange
    | some s =>
      match mapLookup Float64.eq flipScoreMap s with
      | some idx => tossLoop scoreValues flipScoreMap n (i + 1) (topIndex ++ [idx])
      | none => tossLoop scoreValues flipScoreMap n (i + 1) topIndex

/-- The function `Tossing(scores, top)`.  `ord₁` is the order in which the
loop of line 67 visits `scoreMap`, `ord₂` the order of the loop of line 74. -/
def Tossing (scores : List (Float64 α)) (top : Int) (ord₁ ord₂ : List Nat) :
    Except Fault (List Nat) :=
  let scoreMap := buildScoreMap scores
  let scoreValues := sortReverse ((rangeVisit scoreMap ord₁).map Prod.snd)
  let flipScoreMap := buildFlipScoreMap (rangeVisit scoreMap ord₂)
  let top := if (scores.length : Int) < top then (scores.length : Int) else top
  tossLoop scoreValues flipScoreMap top.toNat 0 []

end Tossing

/-- The score of the index `i`; an index outside the vector has none, which
is written NaN here. -/
def scoreAt {α : Type} (scores : List (Float64 α)) (i : Nat) : Float64 α :=
  scores.getD i Float64.NaN

/-- The list of indices `π` lists its indices by strictly decreasing score. -/
def StrictlyDescending {α : Type} [LinearOrder α] (scores : List (Float64 α))
    (π : List Nat) : Prop :=
  π.Pairwise (fun i j => Float64.lt (scoreAt scores j) (scoreAt scores i) = true)

/-! ## `BuildProfiles` and `profileFilter` (toss.go, lines 9-58) -/

/-- A `time.Time`, as the instant it denotes: `After` compares instants. -/
abbrev Time := Int

/-- The record `issues.Issue` with the fields the code and its tests use (the
package `coralreefci/models/issues` itself is not part of the sources). -/
structure Issue where
  Body : String
  Assignee : String
  Resolved : Time
  Labels : List String
  deriving DecidableEq, Repr

/-- The struct `Assignee` of lines 9-14.  `Contributions` is a Go `int`; it
counts elements of a slice, so it stays far below `2^63`. -/
structure Assignee where
  Name : String
  LastActive : Time
  Profile : List String
  Contributions : Int
  deriving DecidableEq, Repr

/-- The type `Assignees`: `map[string]*Assignee`.  Every pointer in the map
comes from its own `&Assignee{..}` (line 33), so an entry holds its struct. -/
abbrev Assignees := List (String × Assignee)

/-- Key equality of a `map[string]..`. -/
def stringEq (a b : String) : Bool :=
  decide (a = b)

/-- Lines 22-39: one round of the loop over `issues`. -/
def profileStep (profiles : Assignees) (issue : Issue) : Assignees :=
  let name := issue.Assignee
  let active := issue.Resolved
  let labels := issue.Labels
  match mapLookup stringEq profiles name with
  | some p =>
    let p₁ := if active > p.LastActive then { p with LastActive := active } else p
    let p₂ := { p₁ with Profile := p₁.Profile ++ labels }
    let p₃ := { p₂ with Contributions := p₂.Contributions + 1 }
    mapAssign stringEq profiles name p₃
  | none =>
    mapAssign stringEq profiles name
      { Name := name, LastActive := active, Profile := labels, Contributions := 1 }

/-- Lines 19-40: the map after the loop over `issues`. -/
def collectProfiles (issues : List Issue) : Assignees :=
  issues.foldl profileStep []

/-- Lines 51-56: the loop of `profileFilter` over the rest of `input`, with
the map `found` and the slice `clean` built so far.  `found[x]` of a key that
is absent is `false`. -/
def profileFilterLoop : List String → List (String × Bool) → List String → List String
  | [], _, clean => clean
  | x :: rest, found, clean =>
    if ((mapLookup stringEq found x).getD false) != true then
      profileFilterLoop rest (mapAssign stringEq found x true) (clean ++ [x])
    else
      profileFilterLoop rest found clean

/-- The function `profileFilter(input)` of lines 48-58. -/
def profileFilter (input : List String) : List String :=
  profileFilterLoop input [] []

/-- Lines 42-43: one round of the loop over the keys of `profiles`.  The
expression `profiles[index].Profile` goes through the pointer stored under
`index`, which is nil when the key is absent. -/
def cleanStep (profiles : Assignees) (index : String) : Except Fault Assignees :=
  match mapLookup stringEq profiles index with
  | none => .error Fault.nilDereference
  | some p => .ok (mapAssign stringEq profiles index { p with Profile := profileFilter p.Profile })

/-- Lines 41-44: the loop over the keys in `keys`, in that order. -/
def cleanLoop : List String → Assignees → Except Fault Assignees
  | [], profiles => .ok profiles
  | index :: keys, profiles =>
    match cleanStep profiles index with
    | .error e => .error e
    | .ok profiles' => cleanLoop keys profiles'

/-- The function `BuildProfiles(issues)`; `ord` is the order in which the
`range` loop of line 41 visits `profiles`. -/
def BuildProfiles (issues : List Issue) (ord : List Nat) : Except Fault Assignees :=
  let profiles := collectProfiles issues
  cleanLoop ((rangeVisit profiles ord).map Prod.fst) profiles

/-- Lines 27-31: what a later issue of the same assignee does to a profile. -/
def bumpProfile (p : Assignee) (issue : Issue) : Assignee :=
  { Name := p.Name
    LastActive := if issue.Resolved > p.LastActive then issue.Resolved else p.LastActive
    Profile := p.Profile ++ issue.Labels
    Contributions := p.Contributions + 1 }

/-- Lines 33-38: the profile the first issue of an assignee creates. -/
def freshProfile (issue : Issue) : Assignee :=
  { Name := issue.Assignee, LastActive := issue.Resolved, Profile := issue.Labels,
    Contributions := 1 }

/-- What one issue does to the entry of its assignee. -/
def updateEntry (entry : Option Assignee) (issue : Issue) : Option Assignee :=
  match entry with
  | some p => some (bumpProfile p issue)
  | none => some (freshProfile issue)

/-- Lines 42-43: what the last loop does to a profile. -/
def cleanedProfile (p : Assignee) : Assignee :=
  { p with Profile := profileFilter p.Profile }

/-- The labels of the issues assigned to `k`, concatenated in input order. -/
def labelsOf (issues : List Issue) (k : String) : List String :=
  ((issues.filter (fun i => decide (i.Assignee = k))).map (fun i => i.Labels)).flatten

/-- Order-preserving deduplication, as the specification words it: every
element once, at the place of its first occurrence.  The head stays, and is
struck from the deduplicated tail. -/
def firstOccurrences : List String → List String
  | [] => []
  | x :: xs => x :: (firstOccurrences xs).filter (fun y => decide (y ≠ x))

/-- Three issues of two assignees, with a repeated label and timestamps out
of order, on which the theorems about `BuildProfiles` are instantiated. -/
def sampleIssues : List Issue :=
  [ { Body := "parallel test body", Assignee := "Mike", Resolved := 5,
      Labels := ["bug", "area-ci", "bug"] },
    { Body := "fxcore test body and", Assignee := "John", Resolved := 3,
      Labels := ["docs"] },
    { Body := "something or other whatever", Assignee := "Mike", Resolved := 9,
      Labels := ["area-ci", "perf"] } ]

/-! ## `FoldImplementation` (fold.go, lines 57-95) -/

/-- A `github.User` as far as the code reads it: `Login` is a `*string`. -/
structure User where
  Login : Option String
  deriving DecidableEq, Repr

/-- The field `Issue` of a `conflation.ExpandedIssue` (the package is not part
of the sources; the fields are the ones fold.go reads).  `Assignees` is a
`[]*User`: `none` is the nil slice, and every element may be a nil pointer. -/
structure CRIssue where
  Body : Option String
  Assignees : Option (List (Option User))
  deriving DecidableEq, Repr

/-- The field `PullRequest` of a `conflation.ExpandedIssue`; `User` is a
`*User`. -/
structure CRPullRequest where
  User : Option User
  deriving DecidableEq, Repr

/-- The record `conflation.ExpandedIssue`. -/
structure ExpandedIssue where
  PullRequest : CRPullRequest
  Issue : CRIssue
  deriving DecidableEq, Repr

/-- What `FoldImplementation` calls on the model `m` and does not define:
`Learn`, `Predict` and `BuildMatrix`.  `σ` is the state of the classifier,
`μ` the type `matrix`.  `Learn` gives the state it leaves behind, `Predict`
reads the state and gives the ranked candidates, and `BuildMatrix` gives
`none` when its `err` is not nil. -/
structure Model (σ μ : Type) where
  Learn : σ → List ExpandedIssue → σ
  Predict : σ → ExpandedIssue → List String
  BuildMatrix : List String → List String → Option (μ × List String)

/-- What a call of `FoldImplementation` that returns leaves behind: the three
values it returns and the state of the classifier after `Learn`. -/
structure FoldResult (σ μ : Type) where
  score : Float64 ℚ
  mat : μ
  dist : List String
  state : σ

/-- The expression `*test[i].Issue.Assignees[0].Login` (lines 63, 72, 79). -/
def firstAssigneeLogin (r : ExpandedIssue) : Except Fault String :=
  match r.Issue.Assignees with
  | none => .error Fault.indexOutOfRange
  | some [] => .error Fault.indexOutOfRange
  | some (none :: _) => .error Fault.nilDereference
  | some (some u :: _) =>
    match u.Login with
    | none => .error Fault.nilDereference
    | some login => .ok login

/-- The expression `*test[i].PullRequest.User.Login` (line 65). -/
def pullRequestLogin (r : ExpandedIssue) : Except Fault String :=
  match r.PullRequest.User with
  | none => .error Fault.nilDereference
  | some u =>
    match u.Login with
    | none => .error Fault.nilDereference
    | some login => .ok login

/-- Lines 62-66: the label one round of the first loop appends to
`expected`. -/
def expectedLabel (r : ExpandedIssue) : Except Fault String :=
  if r.Issue.Assignees.isSome then firstAssigneeLogin r else pullRequestLogin r

/-- Lines 61-67: the first loop over the rest of `test`. -/
def expectedLoop : List ExpandedIssue → List String → Except Fault (List String)
  | [], expected => .ok expected
  | r :: rest, expected =>
    match expectedLabel r with
    | .error e => .error e
    | .ok label => expectedLoop rest (expected ++ [label])

/-- Lines 78-87: the loop `for j := 0; j < length; j++`, entered with the
value `j`.  Both branches of its body end in `break`: the body runs at most
once and `j++` is never reached. -/
def candidateLoop (predictions : List String) (r : ExpandedIssue) (length j : Nat)
    (predicted : List String) (correct : Nat) : Except Fault (List String × Nat) :=
  if j < length then
    match predictions[j]? with
    | none => .error Fault.indexOutOfRange
    | some candidate =>
      match firstAssigneeLogin r with
      | .error e => .error e
      | .ok login =>
        if candidate = login then
          .ok (predicted ++ [candidate], correct + 1)
        else
          match predictions[0]? with
          | none => .error Fault.indexOutOfRange
          | some first => .ok (predicted ++ [first], correct)
  else .ok (predicted, correct)

/-- Lines 72-87: one round of the second loop. -/
def predictStep {σ μ : Type} (m : Model σ μ) (s : σ) (r : ExpandedIssue)
    (predicted : List String) (correct : Nat) : Except Fault (List String × Nat) :=
  match firstAssigneeLogin r with
  | .error e => .error e
  | .ok _ =>
    let predictions := m.Predict s r
    let length := if predictions.length < 5 then predictions.length else 5
    candidateLoop predictions r length 0 predicted correct

/-- Lines 71-88: the second loop over the rest of `test`. -/
def predictLoop {σ μ : Type} (m : Model σ μ) (s : σ) :
    List ExpandedIssue → List String → Nat → Except Fault (List String × Nat)
  | [], predicted, correct => .ok (predicted, correct)
  | r :: rest, predicted, correct =>
    match predictStep m s r predicted correct with
    | .error e => .error e
    | .ok (predicted', correct') => predictLoop m s rest predicted' correct'

/-- Line 94: `float64(correct) / float64(len(test))`, the quotient of the two
integers taken exactly.  With `len(test) = 0` no round of the loop ran,
`correct` is 0 and the float64 quotient `0 / 0` is NaN. -/
def accuracy (correct len : Nat) : Float64 ℚ :=
  if len = 0 then Float64.NaN else Float64.val ((correct : ℚ) / (len : ℚ))

/-- The method `FoldImplementation(train, test)` of the model `m` whose
classifier is in state `s`. -/
def FoldImplementation {σ μ : Type} (m : Model σ μ) (s : σ)
    (train test : List ExpandedIssue) : Except Fault (FoldResult σ μ) :=
  match expectedLoop test [] with
  | .error e => .error e
  | .ok expected =>
    let s' := m.Learn s train
    match predictLoop m s' test [] 0 with
    | .error e => .error e
    | .ok (predicted, correct) =>
      match m.BuildMatrix expected predicted with
      | none => .error Fault.matrixPanic
      | some (mat, dist) =>
        .ok { score := accuracy correct test.length, mat := mat, dist := dist, state := s' }

/-- Modelled from the spec: `BuildMatrix` and the type `matrix`, which the
sources call and do not define.  Section 4.6: "equal-length label sequences →
contingency counts over the distinct union of both; fails with a declared
error on length mismatch".  The matrix is the table of counts, one row per
expected label and one column per predicted label, over the distinct labels
in the order of their first occurrence. -/
def specBuildMatrix (expected predicted : List String) :
    Option (List (List Nat) × List String) :=
  if expected.length = predicted.length then
    let distinct := firstOccurrences (expected ++ predicted)
    some (distinct.map (fun e => distinct.map (fun p =>
      (expected.zip predicted).count (e, p))), distinct)
  else none

/-- Whether the first candidate `Predict` proposes for `r` is the login of
the first assignee of `r`. -/
def firstHit {σ μ : Type} (m : Model σ μ) (s : σ) (r : ExpandedIssue) : Bool :=
  match (m.Predict s r).head?, firstAssigneeLogin r with
  | some candidate, .ok login => decide (candidate = login)
  | _, _ => false

/-- The number of test records counted correct: those whose first candidate
is their true label. -/
def countedCorrect {σ μ : Type} (m : Model σ μ) (s : σ) (test : List ExpandedIssue) : Nat :=
  test.countP (firstHit m s)

/-- A classifier on which the theorems about `FoldImplementation` are
instantiated: it has no state, and proposes the body of the record and then
"Mike".  Its matrix is `specBuildMatrix`. -/
def sampleModel : Model Unit (List (List Nat)) where
  Learn := fun _ _ => ()
  Predict := fun _ r =>
    match r.Issue.Body with
    | some body => [body, "Mike"]
    | none => []
  BuildMatrix := specBuildMatrix

/-- A record with the body `body`, assigned to `login`. -/
def sampleRecord (body login : String) : ExpandedIssue :=
  { PullRequest := { User := none }
    Issue := { Body := some body, Assignees := some [some { Login := some login }] } }

/-- Two records whose first candidate is their assignee. -/
def hitTest : List ExpandedIssue :=
  [sampleRecord "Mike" "Mike", sampleRecord "John" "John"]

/-- Two records whose assignee is not among the candidates. -/
def missTest : List ExpandedIssue :=
  [sampleRecord "Anna" "John", sampleRecord "Mary" "Bob"]

/-- Three records, the first of which is counted correct. -/
def mixedTest : List ExpandedIssue :=
  [sampleRecord "Mike" "Mike", sampleRecord "Anna" "John", sampleRecord "Bob" "Mike"]

/-- A record whose `Issue.Assignees` is the nil slice; its pull request has
a user with a login. -/
def unassignedRecord : ExpandedIssue :=
  { PullRequest := { User := some { Login := some "Mike" } }
    Issue := { Body := some "Mike", Assignees := none } }

/-- A record whose `Issue.Assignees` is a slice that is not nil and empty. -/
def emptyAssigneesRecord : ExpandedIssue :=
  { PullRequest := { User := some { Login := some "Mike" } }
    Issue := { Body := some "Mike", Assignees := some [] } }

/-- A record for which `sampleModel` proposes no candidate. -/
def silentRecord : ExpandedIssue :=
  { PullRequest := { User := none }
    Issue := { Body := none, Assignees := some [some { Login := some "Mike" }] } }

/-! ## float64 loop variables (fold.go, lines 12 and 43) -/

/-- The number of low bits a float64 drops from the natural number `v`: the
least `s` with `v / 2^s < 2^53`, a float64 having 53 significant bits.  The
first argument bounds the search; 64 is enough below `2^117`. -/
def sigShift : Nat → Nat → Nat
  | 0, _ => 0
  | fuel + 1, v => if v < 2 ^ 53 then 0 else sigShift fuel (v / 2) + 1

/-- Rounding to float64.  The loop variables of `JohnFold` and `TenFold` stay
in `[0.1, 2)`, and every float64 in `[2^-4, 2)` is a whole multiple of
`2^-56`: such a float64 is written as its number of units of `2^-56`.
`roundRatio x d` is the float64 nearest to `x / d` units, a tie going to the
even significand (IEEE 754 round to nearest even, the rounding of Go's
float64 arithmetic and constant conversion), for `x / d ≥ 2^52`. -/
def roundRatio (x d : Nat) : Nat :=
  let s := sigShift 64 (x / d)
  let D := d * 2 ^ s
  let q := x / D
  let r := x % D
  (if D < 2 * r ∨ (2 * r = D ∧ q % 2 = 1) then q + 1 else q) * 2 ^ s

/-- The float64 of the decimal constant `num / den`, in units of `2^-56`:
`f64Lit 1 10` is the constant `0.10` of the source. -/
def f64Lit (num den : Nat) : Nat :=
  roundRatio (num * 2 ^ 56) den

/-- The float64 sum `a + b`, in units of `2^-56`: the exact sum, rounded. -/
def f64Add (a b : Nat) : Nat :=
  roundRatio (a + b) 1

/-- The values the variable `i` of a loop `for i := ..; cond(i); i += step`
takes in the rounds the loop runs, from the value `i` on.  The body does not
assign to `i`.  The first argument bounds the number of rounds. -/
def floatLoopValues (cond : Nat → Bool) (step : Nat) : Nat → Nat → List Nat
  | 0, _ => []
  | fuel + 1, i =>
    if cond i then i :: floatLoopValues cond step fuel (f64Add i step) else []

/-- Line 12: the values of `i` in `for i := 0.10; i < 0.90; i += 0.10`. -/
def johnFoldFractions : List Nat :=
  floatLoopValues (fun i => decide (i < f64Lit 9 10)) (f64Lit 1 10) 16 (f64Lit 1 10)

/-- Line 43: the values of `i` in `for i := 0.10; i <= 1.00; i += 0.10`. -/
def tenFoldFractions : List Nat :=
  floatLoopValues (fun i => decide (i ≤ f64Lit 1 1)) (f64Lit 1 10) 16 (f64Lit 1 10)

/-! ## `JohnFold`, `TwoFold`, `TenFold` (fold.go, lines 8-55) -/

/-- The float64 sum of two scores.  The sum of two numbers is taken exactly;
NaN gives NaN. -/
def Float64.add : Float64 ℚ → Float64 ℚ → Float64 ℚ
  | .val a, .val b => .val (a + b)
  | _, _ => .NaN

/-- The float64 quotient of a score by the constant `n` (`9.00`, `2.00`,
`10.00`).  The quotient of two numbers is taken exactly; NaN gives NaN. -/
def Float64.divConst : Float64 ℚ → ℚ → Float64 ℚ
  | .val a, n => .val (a / n)
  | .NaN, _ => .NaN

/-- The functions the three strategies call and the sources do not define.
`splitIndex i n` is the value of `int(Round(i * float64(n)))` for the loop
value `i` (in units of `2^-56`) and `n = len(issues)`; `Round` and `ToString`
are the two functions of these names, applied to the averaged score. -/
structure Helpers where
  splitIndex : Nat → Nat → Int
  Round : Float64 ℚ → Float64 ℚ
  ToString : Float64 ℚ → String

/-- A slice expression `xs[lo:hi]`.  Go lets `hi` go up to the capacity of
`xs`; every slice expression of the three strategies stands next to one whose
bound is checked against the length (`issues[:split]` next to
`issues[split:]`, `issues[start:end]` next to `issues[end:]`), so the round
panics as soon as a bound is beyond the length. -/
def sliceOf {β : Type} (xs : List β) (lo hi : Int) : Except Fault (List β) :=
  if 0 ≤ lo ∧ lo ≤ hi ∧ hi ≤ (xs.length : Int) then
    .ok ((xs.drop lo.toNat).take (hi.toNat - lo.toNat))
  else .error Fault.sliceOutOfRange

/-- The backing array `array` after `append(array[:pos], src...)`, when the
result fits the capacity: `append` then allocates nothing and copies `src`
over the elements from position `pos` on. -/
def overwriteAt {β : Type} (array : List β) (pos : Nat) (src : List β) : List β :=
  array.take pos ++ src ++ array.drop (pos + src.length)

/-- One call of `FoldImplementation` made by a strategy, as a record of the
run: the loop value, the bounds `lo`, `hi` of the round (`0` and `split` in
`JohnFold`, `start` and `end` in `TenFold`), the backing array of `issues`
before and after the round, the state of the classifier before the call, the
two arguments, and what the call returned. -/
structure FoldCall (σ μ : Type) where
  fraction : Nat
  lo : Int
  hi : Int
  before : List ExpandedIssue
  after : List ExpandedIssue
  state : σ
  train : List ExpandedIssue
  test : List ExpandedIssue
  result : FoldResult σ μ

/-- What a strategy that returns leaves behind: its calls of
`FoldImplementation` in order, the sum of their scores, the argument of the
final `Round`, the string it returns, and the state of the classifier. -/
structure FoldRun (σ μ : Type) where
  calls : List (FoldCall σ μ)
  finalScore : Float64 ℚ
  average : Float64 ℚ
  output : String
  state : σ

/-- Lines 12-20: the loop of `JohnFold` over the loop values left. -/
def johnFoldLoop {σ μ : Type} (h : Helpers) (m : Model σ μ) (issues : List ExpandedIssue) :
    List Nat → σ → Float64 ℚ → List (FoldCall σ μ) →
      Except Fault (σ × Float64 ℚ × List (FoldCall σ μ))
  | [], s, finalScore, calls => .ok (s, finalScore, calls)
  | i :: rest, s, finalScore, calls =>
    let split := h.splitIndex i issues.length
    match sliceOf issues 0 split with
    | .error e => .error e
    | .ok train =>
      match sliceOf issues split issues.length with
      | .error e => .error e
      | .ok test =>
        match FoldImplementation m s train test with
        | .error e => .error e
        | .ok res =>
          johnFoldLoop h m issues rest res.state (Float64.add finalScore res.score)
            (calls ++ [{ fraction := i, lo := 0, hi := split, before := issues, after := issues,
                         state := s, train := train, test := test, result := res }])

/-- The method `JohnFold(issues)`.  The calls that only log and the writing
of the recovery file are left out. -/
def JohnFold {σ μ : Type} (h : Helpers) (m : Model σ μ) (s : σ) (issues : List ExpandedIssue) :
    Except Fault (FoldRun σ μ) :=
  match johnFoldLoop h m issues johnFoldFractions s (Float64.val 0) [] with
  | .error e => .error e
  | .ok (s', finalScore, calls) =>
    .ok { calls := calls, finalScore := finalScore,
          average := Float64.divConst finalScore 9,
          output := h.ToString (h.Round (Float64.divConst finalScore 9)), state := s' }

/-- Lines 43-53: the loop of `TenFold` over the loop values left, with the
backing array of `issues` as it is and the value of `start`.

Line 45 makes `segment` a slice of the backing array, positions `start` to
`end`.  Line 47 appends `issues[end:]` to `issues[:start]`, whose capacity
reaches the end of the backing array: the elements are copied into the array
from position `start` on, and `remainder` is its first
`start + (len(issues) - end)` elements.  The slice made in line 46 is dropped.
`FoldImplementation` reads `segment` after that. -/
def tenFoldLoop {σ μ : Type} (h : Helpers) (m : Model σ μ) :
    List Nat → List ExpandedIssue → Int → σ → Float64 ℚ → List (FoldCall σ μ) →
      Except Fault (List ExpandedIssue × σ × Float64 ℚ × List (FoldCall σ μ))
  | [], array, _, s, finalScore, calls => .ok (array, s, finalScore, calls)
  | i :: rest, array, start, s, finalScore, calls =>
    let «end» := h.splitIndex i array.length
    match sliceOf array start «end» with
    | .error e => .error e
    | .ok _ =>
      match sliceOf array «end» array.length with
      | .error e => .error e
      | .ok tail =>
        let array' := overwriteAt array start.toNat tail
        let remainder := array'.take (start.toNat + tail.length)
        let segment := (array'.drop start.toNat).take («end».toNat - start.toNat)
        match FoldImplementation m s segment remainder with
        | .error e => .error e
        | .ok res =>
          tenFoldLoop h m rest array' «end» res.state (Float64.add finalScore res.score)
            (calls ++ [{ fraction := i, lo := start, hi := «end», before := array,
                         after := array', state := s, train := segment, test := remainder,
                         result := res }])

/-- The method `TenFold(issues)`.  The calls that only log are left out. -/
def TenFold {σ μ : Type} (h : Helpers) (m : Model σ μ) (s : σ) (issues : List ExpandedIssue) :
    Except Fault (FoldRun σ μ) :=
  match tenFoldLoop h m tenFoldFractions issues 0 s (Float64.val 0) [] with
  | .error e => .error e
  | .ok (_, s', finalScore, calls) =>
    .ok { calls := calls, finalScore := finalScore,
          average := Float64.divConst finalScore 10,
          output := h.ToString (h.Round (Float64.divConst finalScore 10)), state := s' }

/-- Modelled from the spec: `int(Round(i * float64(n)))`, with `Round` a
function the sources call and do not define.  Section 4.5 has the strategies
split at the fractions `f = 0.1, 0.2, ..` of the `N` records, and the claims
read the bound as `round(k/10 * N)` in exact arithmetic: `k / 10` is the
decimal fraction nearest to the loop value `i`, and the bound is the integer
nearest to `k * n / 10`, a half rounded up. -/
def specSplitIndex (i n : Nat) : Int :=
  let k := (10 * i + 2 ^ 55) / 2 ^ 56
  (((2 * k * n + 10) / 20 : Nat) : Int)

/-- Modelled from the spec: the functions `Round` and `ToString`, which the
sources call and do not define; nothing is said of them, and they are taken
to leave the averaged score as it is and to print nothing of it. -/
def specHelpers : Helpers where
  splitIndex := specSplitIndex
  Round := fun x => x
  ToString := fun _ => ""

/-- Ten records with ten different bodies and assignees. -/
def tenRecords : List ExpandedIssue :=
  [sampleRecord "b0" "u0", sampleRecord "b1" "u1", sampleRecord "b2" "u2",
   sampleRecord "b3" "u3", sampleRecord "b4" "u4", sampleRecord "b5" "u5",
   sampleRecord "b6" "u6", sampleRecord "b7" "u7", sampleRecord "b8" "u8",
   sampleRecord "b9" "u9"]

/-- The sum `finalScore` of the scores of the calls, added in order to
`start`. -/
def scoreSum {σ μ : Type} (start : Float64 ℚ) (calls : List (FoldCall σ μ)) : Float64 ℚ :=
  calls.foldl (fun acc c => Float64.add acc c.result.score) start

/-- Each call finds the classifier in the state the call before it left; the
first finds it in the state `s`. -/
def StateChain {σ μ : Type} : σ → List (FoldCall σ μ) → Prop
  | _, [] => True
  | s, c :: rest => c.state = s ∧ StateChain c.result.state rest

/-- Each round finds the backing array as the round before it left it and
starts at the bound where that round ended; the first finds the array
`array` and starts at `start`. -/
def ArrayChain {σ μ : Type} : List ExpandedIssue → Int → List (FoldCall σ μ) → Prop
  | _, _, [] => True
  | array, start, c :: rest => c.before = array ∧ c.lo = start ∧ ArrayChain c.after c.hi rest

/-- What one round of `JohnFold` on `issues` does (lines 13-14). -/
def JohnCall {σ μ : Type} (h : Helpers) (m : Model σ μ) (issues : List ExpandedIssue)
    (c : FoldCall σ μ) : Prop :=
  c.lo = 0 ∧ c.hi = h.splitIndex c.fraction issues.length ∧
  0 ≤ c.hi ∧ c.hi ≤ (issues.length : Int) ∧
  c.before = issues ∧ c.after = issues ∧
  c.train = issues.take c.hi.toNat ∧ c.test = issues.drop c.hi.toNat ∧
  FoldImplementation m c.state c.train c.test = .ok c.result

/-- What one round of `TenFold` on `n` records does (lines 44-48). -/
def TenCall {σ μ : Type} (h : Helpers) (m : Model σ μ) (n : Nat) (c : FoldCall σ μ) : Prop :=
  c.before.length = n ∧ c.after.length = n ∧
  c.hi = h.splitIndex c.fraction n ∧
  0 ≤ c.lo ∧ c.lo ≤ c.hi ∧ c.hi ≤ (n : Int) ∧
  c.after = overwriteAt c.before c.lo.toNat (c.before.drop c.hi.toNat) ∧
  c.train = (c.after.drop c.lo.toNat).take (c.hi.toNat - c.lo.toNat) ∧
  c.test = c.before.take c.lo.toNat ++ c.before.drop c.hi.toNat ∧
  FoldImplementation m c.state c.train c.test = .ok c.result

/-! ## Payload encoding (pipeline/ingestor/database.go, lines 705-718, 759-802) -/

/-- A `byte`, as its value, a number below 256. -/
abbrev Byte := Nat

/-- The assignment `buf[pos] = c` to an element of the slice `buf`. -/
def writeAt (buf : List Byte) (pos : Nat) (c : Byte) : Except Fault (List Byte) :=
  if pos < buf.length then .ok (buf.set pos c) else .error Fault.indexOutOfRange

/-- Lines 708-714: the loop of `stripCtlAndExtFromBytes` over the rest of
`str`, with the slice `b` and the count `bl`. -/
def stripLoop : List Byte → List Byte → Nat → Except Fault (List Byte × Nat)
  | [], b, bl => .ok (b, bl)
  | c :: rest, b, bl =>
    if c ≥ 32 ∧ c < 127 then
      match writeAt b bl c with
      | .error e => .error e
      | .ok b' => stripLoop rest b' (bl + 1)
    else stripLoop rest b bl

/-- The function `stripCtlAndExtFromBytes(str)`: `b` is made with
`len(str)` zero bytes, and `b[:bl]` is returned. -/
def stripCtlAndExtFromBytes (str : List Byte) : Except Fault (List Byte) :=
  match stripLoop str (List.replicate str.length 0) 0 with
  | .error e => .error e
  | .ok (b, bl) => sliceOf b 0 (bl : Int)

/-- The three statements `buf[pos] = x`, `buf[pos+1] = y`, `pos += 2` of the
escaping cases. -/
def writePair (buf : List Byte) (pos : Nat) (x y : Byte) : Except Fault (List Byte × Nat) :=
  match writeAt buf pos x with
  | .error e => .error e
  | .ok buf' =>
    match writeAt buf' (pos + 1) y with
    | .error e => .error e
    | .ok buf'' => .ok (buf'', pos + 2)

/-- Lines 763-797: the `switch v[i]` of `escapeBytesBackslash`.  The cases
are the bytes `\x00` (0), `\n` (10), `\r` (13), `\x1a` (26), `'` (39), `"`
(34), `\` (92) and `~` (126); the bytes written are `\` (92), `0` (48), `n`
(110), `r` (114), `Z` (90).  The case `~` is `continue`. -/
def escapeStep (buf : List Byte) (pos : Nat) (c : Byte) : Except Fault (List Byte × Nat) :=
  if c = 0 then writePair buf pos 92 48
  else if c = 10 then writePair buf pos 92 110
  else if c = 13 then writePair buf pos 92 114
  else if c = 26 then writePair buf pos 92 90
  else if c = 39 then writePair buf pos 92 39
  else if c = 34 then writePair buf pos 92 34
  else if c = 92 then writePair buf pos 92 92
  else if c = 126 then .ok (buf, pos)
  else
    match writeAt buf pos c with
    | .error e => .error e
    | .ok buf' => .ok (buf', pos + 1)

/-- Lines 762-798: the loop of `escapeBytesBackslash` over the rest of `v`,
with the slice `buf` and the position `pos`. -/
def escapeLoop : List Byte → List Byte → Nat → Except Fault (List Byte × Nat)
  | [], buf, pos => .ok (buf, pos)
  | c :: rest, buf, pos =>
    match escapeStep buf pos c with
    | .error e => .error e
    | .ok (buf', pos') => escapeLoop rest buf' pos'

/-- The function `escapeBytesBackslash(v)`: `buf` is made with `2*len(v)`
zero bytes, and `buf[:pos]` is returned. -/
def escapeBytesBackslash (v : List Byte) : Except Fault (List Byte) :=
  match escapeLoop v (List.replicate (2 * v.length) 0) 0 with
  | .error e => .error e
  | .ok (buf, pos) => sliceOf buf 0 (pos : Int)

/-- The payload field of a line of the bulk insert (line 179):
`escapeBytesBackslash(stripCtlAndExtFromBytes(payload))`. -/
def encodePayload (payload : List Byte) : Except Fault (List Byte) :=
  match stripCtlAndExtFromBytes payload with
  | .error e => .error e
  | .ok stripped => escapeBytesBackslash stripped

/-- The bytes `escapeBytesBackslash` puts in the place of the byte `c`. -/
def escapedByte (c : Byte) : List Byte :=
  if c = 0 then [92, 48]
  else if c = 10 then [92, 110]
  else if c = 13 then [92, 114]
  else if c = 26 then [92, 90]
  else if c = 39 then [92, 39]
  else if c = 34 then [92, 34]
  else if c = 92 then [92, 92]
  else if c = 126 then []
  else [c]

/-! ## Lemmas: float64 order, maps, `range` loops -/

section Lemmas

variable {α : Type} [LinearOrder α]

theorem Float64.eq_trans {x y z : Float64 α} (h₁ : Float64.eq x y = true)
    (h₂ : Float64.eq y z = true) : Float64.eq x z = true := by
  cases x <;> cases y <;> cases z <;> simp_all [Float64.eq]

theorem Float64.eq_self_of_not_isNaN {x : Float64 α} (h : x.isNaN = false) :
    Float64.eq x x = true := by
  cases x <;> simp_all [Float64.eq, Float64.isNaN]

theorem sortReverse_perm (xs : List (Float64 α)) : (sortReverse xs).Perm xs :=
  List.perm_insertionSort _ xs

theorem sortReverse_sorted (xs : List (Float64 α)) :
    (sortReverse xs).Sorted Float64.revLE :=
  List.sorted_insertionSort _ xs

/-- Whatever the sorting algorithm, there is one result: a permutation of
`xs` that is in `Reverse` order is `sortReverse xs`. -/
theorem sortReverse_unique {xs ys : List (Float64 α)} (hp : ys.Perm xs)
    (hs : ys.Sorted Float64.revLE) : ys = sortReverse xs :=
  List.eq_of_perm_of_sorted (hp.trans (sortReverse_perm xs).symm) hs (sortReverse_sorted xs)

theorem mapAssign_of_fresh {κ ν : Type} (eq : κ → κ → Bool) (m : List (κ × ν)) (k : κ) (v : ν)
    (h : ∀ e ∈ m, eq e.1 k = false) : mapAssign eq m k v = m ++ [(k, v)] := by
  induction m with
  | nil => rfl
  | cons e m ih =>
    obtain ⟨k', v'⟩ := e
    have hk : eq k' k = false := h (k', v') (List.mem_cons_self _ _)
    simp only [mapAssign, hk, Bool.false_eq_true, if_false, List.cons_append]
    rw [ih (fun e he => h e (List.mem_cons_of_mem _ he))]

omit [LinearOrder α] in
theorem foldl_mapAssign_enumFrom (scores : List (Float64 α)) (n : Nat)
    (acc : List (Nat × Float64 α)) (h : ∀ e ∈ acc, e.1 < n) :
    (scores.enumFrom n).foldl
      (fun m e => mapAssign (fun i j => decide (i = j)) m e.1 e.2) acc
      = acc ++ scores.enumFrom n := by
  induction scores generalizing n acc with
  | nil => simp
  | cons s scores ih =>
    simp only [List.enumFrom_cons, List.foldl_cons]
    rw [mapAssign_of_fresh, ih]
    · simp
    · intro e he
      rcases List.mem_append.1 he with he | he
      · exact Nat.lt_succ_of_lt (h e he)
      · simp at he; subst he; simp
    · intro e he
      have := h e he
      simp; omega

omit [LinearOrder α] in
theorem buildScoreMap_eq (scores : List (Float64 α)) : buildScoreMap scores = scores.enum := by
  have := foldl_mapAssign_enumFrom scores 0 [] (by simp)
  simpa [buildScoreMap, List.enum] using this

theorem rangeVisit_range {κ ν : Type} (m : List (κ × ν)) :
    rangeVisit m (List.range m.length) = m := by
  induction m with
  | nil => rfl
  | cons e m ih =>
    have : rangeVisit (e :: m) (List.range (m.length + 1)) = e :: rangeVisit m (List.range m.length) := by
      simp [rangeVisit, List.range_succ_eq_map, List.filterMap_map, Function.comp_def]
    rw [List.length_cons, this, ih]

theorem rangeVisit_perm {κ ν : Type} {m : List (κ × ν)} {ord : List Nat}
    (h : RangeOrder m.length ord) : (rangeVisit m ord).Perm m := by
  have key : (rangeVisit m ord).Perm (rangeVisit m (List.range m.length)) :=
    List.Perm.filterMap (fun i => m[i]?) h
  rw [rangeVisit_range m] at key
  exact key

omit [LinearOrder α] in
/-- Whatever the visiting order, a `range` loop over `scoreMap` sees the
scores of the input, each as often as it occurs there. -/
theorem rangeVisit_scoreMap_perm (scores : List (Float64 α)) {ord : List Nat}
    (h : RangeOrder scores.length ord) :
    ((rangeVisit (buildScoreMap scores) ord).map Prod.snd).Perm scores := by
  rw [buildScoreMap_eq]
  have h' : RangeOrder scores.enum.length ord := by
    rw [List.enum_length]; exact h
  have key := (rangeVisit_perm h').map Prod.snd
  rwa [List.enum_map_snd] at key

theorem scoreValues_perm (scores : List (Float64 α)) {ord : List Nat}
    (h : RangeOrder scores.length ord) :
    (sortReverse ((rangeVisit (buildScoreMap scores) ord).map Prod.snd)).Perm scores :=
  (sortReverse_perm _).trans (rangeVisit_scoreMap_perm scores h)

theorem mapLookup_mapAssign_isSome {κ ν : Type} (eq : κ → κ → Bool)
    (hT : ∀ a b c, eq a b = true → eq b c = true → eq a c = true)
    (m : List (κ × ν)) (k : κ) (v : ν) (k' : κ) :
    (mapLookup eq (mapAssign eq m k v) k').isSome
      = ((mapLookup eq m k').isSome || eq k k') := by
  induction m with
  | nil =>
    cases h : eq k k' <;> simp [mapAssign, mapLookup, h]
  | cons e m ih =>
    obtain ⟨k₀, v₀⟩ := e
    by_cases h₀ : eq k₀ k = true
    · by_cases h₁ : eq k₀ k' = true
      · simp [mapAssign, mapLookup, h₀, h₁]
      · have h₂ : eq k k' = false := by
          cases h : eq k k'
          · rfl
          · exact absurd (hT _ _ _ h₀ h) h₁
        simp [mapAssign, mapLookup, h₀, h₁, h₂]
    · by_cases h₁ : eq k₀ k' = true
      · simp [mapAssign, mapLookup, h₀, h₁]
      · simp [mapAssign, mapLookup, h₀, h₁, ih]

theorem mapLookup_foldl_isSome {κ ν : Type} (eq : κ → κ → Bool)
    (hT : ∀ a b c, eq a b = true → eq b c = true → eq a c = true)
    (visited : List (ν × κ)) (m : List (κ × ν)) (k : κ) :
    (mapLookup eq (visited.foldl (fun m e => mapAssign eq m e.2 e.1) m) k).isSome
      = ((mapLookup eq m k).isSome || visited.any (fun e => eq e.2 k)) := by
  induction visited generalizing m with
  | nil => simp
  | cons e visited ih =>
    simp only [List.foldl_cons, List.any_cons]
    rw [ih, mapLookup_mapAssign_isSome eq hT, Bool.or_assoc]

/-- A score that is not NaN and was visited by the loop of line 74 is a key of
`flipScoreMap`. -/
theorem flipScoreMap_isSome (visited : List (Nat × Float64 α)) (s : Float64 α)
    (hs : s.isNaN = false) (hm : s ∈ visited.map Prod.snd) :
    (mapLookup Float64.eq (buildFlipScoreMap visited) s).isSome = true := by
  unfold buildFlipScoreMap
  rw [mapLookup_foldl_isSome Float64.eq (fun _ _ _ => Float64.eq_trans)]
  obtain ⟨e, he, rfl⟩ := List.mem_map.1 hm
  simp only [mapLookup, Option.isSome_none, Bool.false_or, List.any_eq_true]
  exact ⟨e, he, Float64.eq_self_of_not_isNaN hs⟩

/-- A NaN is never found in a map with float64 keys. -/
theorem mapLookup_NaN {ν : Type} (m : List (Float64 α × ν)) :
    mapLookup Float64.eq m Float64.NaN = none := by
  induction m with
  | nil => rfl
  | cons e m ih =>
    obtain ⟨k, v⟩ := e
    cases k <;> simp [mapLookup, Float64.eq, ih]

/-- The loop of lines 83-87 returns when its indices stay inside
`scoreValues`; it appends at most one index a round, and exactly one a round
when every score is found in `flipScoreMap`. -/
theorem tossLoop_length (scoreValues : List (Float64 α))
    (flipScoreMap : List (Float64 α × Nat)) (n i : Nat) (acc : List Nat)
    (hlen : i + n ≤ scoreValues.length) :
    ∃ r, tossLoop scoreValues flipScoreMap n i acc = .ok r ∧ r.length ≤ acc.length + n ∧
      ((∀ s ∈ scoreValues, (mapLookup Float64.eq flipScoreMap s).isSome = true) →
        r.length = acc.length + n) := by
  induction n generalizing i acc with
  | zero => exact ⟨acc, rfl, le_refl _, fun _ => rfl⟩
  | succ n ih =>
    have hi : i < scoreValues.length := by omega
    have hget : scoreValues[i]? = some scoreValues[i] := List.getElem?_eq_getElem hi
    cases hlk : mapLookup Float64.eq flipScoreMap scoreValues[i] with
    | none =>
      obtain ⟨r, hr, hle, _⟩ := ih (i + 1) acc (by omega)
      refine ⟨r, ?_, by omega, ?_⟩
      · simp only [tossLoop, hget, hlk]
        exact hr
      · intro hfound
        have := hfound scoreValues[i] (List.getElem_mem hi)
        rw [hlk] at this
        exact absurd this (by simp)
    | some idx =>
      obtain ⟨r, hr, hle, heq⟩ := ih (i + 1) (acc ++ [idx]) (by omega)
      rw [List.length_append, List.length_singleton] at hle heq
      refine ⟨r, ?_, by omega, ?_⟩
      · simp only [tossLoop, hget, hlk]
        exact hr
      · intro hfound
        have := heq hfound
        omega

end Lemmas

/-! ## Lemmas: maps with string keys -/

section StringMaps

variable {ν : Type}

theorem mapLookup_mapAssign (m : List (String × ν)) (k : String) (v : ν) (k' : String) :
    mapLookup stringEq (mapAssign stringEq m k v) k'
      = if k = k' then some v else mapLookup stringEq m k' := by
  induction m with
  | nil => simp [mapAssign, mapLookup, stringEq]
  | cons e m ih =>
    obtain ⟨k₀, v₀⟩ := e
    by_cases h₀ : k₀ = k
    · subst h₀
      by_cases h₁ : k₀ = k' <;> simp [mapAssign, mapLookup, stringEq, h₁]
    · by_cases h₁ : k₀ = k'
      · subst h₁
        simp [mapAssign, mapLookup, stringEq, h₀, Ne.symm h₀]
      · simp [mapAssign, mapLookup, stringEq, h₀, h₁, ih]

theorem keys_mapAssign (m : List (String × ν)) (k : String) (v : ν) :
    (mapAssign stringEq m k v).map Prod.fst
      = if k ∈ m.map Prod.fst then m.map Prod.fst else m.map Prod.fst ++ [k] := by
  induction m with
  | nil => simp [mapAssign]
  | cons e m ih =>
    obtain ⟨k₀, v₀⟩ := e
    by_cases h₀ : k₀ = k
    · subst h₀
      simp [mapAssign, stringEq]
    · have h₀' : ¬ k = k₀ := fun h => h₀ h.symm
      simp only [mapAssign, stringEq, h₀, decide_False, Bool.false_eq_true, if_false,
        List.map_cons, ih, List.mem_cons, h₀', false_or]
      split <;> simp

theorem nodup_keys_mapAssign (m : List (String × ν)) (k : String) (v : ν)
    (h : (m.map Prod.fst).Nodup) : ((mapAssign stringEq m k v).map Prod.fst).Nodup := by
  rw [keys_mapAssign]
  split
  · exact h
  · rename_i hk
    exact List.nodup_append.2 ⟨h, List.nodup_singleton k, by
      intro a ha hb
      rw [List.mem_singleton] at hb
      exact hk (hb ▸ ha)⟩

theorem mapLookup_eq_none_iff (m : List (String × ν)) (k : String) :
    mapLookup stringEq m k = none ↔ k ∉ m.map Prod.fst := by
  induction m with
  | nil => simp [mapLookup]
  | cons e m ih =>
    obtain ⟨k₀, v₀⟩ := e
    by_cases h₀ : k₀ = k
    · subst h₀; simp [mapLookup, stringEq]
    · have h₀' : ¬ k = k₀ := fun h => h₀ h.symm
      simp [mapLookup, stringEq, h₀, h₀', ih]

theorem mapLookup_eq_some_iff (m : List (String × ν)) (hnd : (m.map Prod.fst).Nodup)
    (k : String) (v : ν) : mapLookup stringEq m k = some v ↔ (k, v) ∈ m := by
  induction m with
  | nil => simp [mapLookup]
  | cons e m ih =>
    obtain ⟨k₀, v₀⟩ := e
    rw [List.map_cons, List.nodup_cons] at hnd
    by_cases h₀ : k₀ = k
    · subst h₀
      have : ∀ w, (k₀, w) ∉ m := fun w hw => hnd.1 (List.mem_map.2 ⟨(k₀, w), hw, rfl⟩)
      simp [mapLookup, stringEq, this, eq_comm]
    · have h₀' : ¬ k = k₀ := fun h => h₀ h.symm
      simp [mapLookup, stringEq, h₀, h₀', ih hnd.2]

theorem mapLookup_map_snd {ν' : Type} (g : ν → ν') (m : List (String × ν)) (k : String) :
    mapLookup stringEq (m.map (fun e => (e.1, g e.2))) k = (mapLookup stringEq m k).map g := by
  induction m with
  | nil => rfl
  | cons e m ih =>
    obtain ⟨k₀, v₀⟩ := e
    by_cases h₀ : k₀ = k <;> simp [mapLookup, stringEq, h₀, ih]

end StringMaps

/-! ## Lemmas: `BuildProfiles` -/

section ProfileLemmas

theorem profileStep_eq (profiles : Assignees) (issue : Issue) :
    profileStep profiles issue
      = mapAssign stringEq profiles issue.Assignee
          ((updateEntry (mapLookup stringEq profiles issue.Assignee) issue).getD
            (freshProfile issue)) := by
  cases h : mapLookup stringEq profiles issue.Assignee with
  | none => simp [profileStep, h, updateEntry, freshProfile]
  | some p =>
    by_cases hlt : issue.Resolved > p.LastActive <;>
      simp [profileStep, h, updateEntry, bumpProfile, hlt]

theorem mapLookup_profileStep (profiles : Assignees) (issue : Issue) (k : String) :
    mapLookup stringEq (profileStep profiles issue) k
      = if issue.Assignee = k then updateEntry (mapLookup stringEq profiles k) issue
        else mapLookup stringEq profiles k := by
  rw [profileStep_eq, mapLookup_mapAssign]
  by_cases h : issue.Assignee = k
  · subst h
    cases mapLookup stringEq profiles issue.Assignee <;> simp [updateEntry]
  · simp [h]

theorem mapLookup_foldl_profileStep (issues : List Issue) (profiles : Assignees) (k : String) :
    mapLookup stringEq (issues.foldl profileStep profiles) k
      = (issues.filter (fun i => decide (i.Assignee = k))).foldl updateEntry
          (mapLookup stringEq profiles k) := by
  induction issues generalizing profiles with
  | nil => rfl
  | cons i issues ih =>
    rw [List.foldl_cons, ih, mapLookup_profileStep]
    by_cases h : i.Assignee = k <;> simp [List.filter_cons, h]

theorem nodup_keys_foldl_profileStep (issues : List Issue) (profiles : Assignees)
    (h : (profiles.map Prod.fst).Nodup) :
    ((issues.foldl profileStep profiles).map Prod.fst).Nodup := by
  induction issues generalizing profiles with
  | nil => exact h
  | cons i issues ih =>
    rw [List.foldl_cons]
    apply ih
    rw [profileStep_eq]
    exact nodup_keys_mapAssign _ _ _ h

theorem nodup_keys_collectProfiles (issues : List Issue) :
    ((collectProfiles issues).map Prod.fst).Nodup :=
  nodup_keys_foldl_profileStep issues [] List.nodup_nil

/-- The later issues of an assignee, folded into the profile `p`. -/
theorem foldl_updateEntry_some (l : List Issue) (p : Assignee) :
    l.foldl updateEntry (some p) = some
      { Name := p.Name
        LastActive := l.foldl (fun t i => if i.Resolved > t then i.Resolved else t) p.LastActive
        Profile := p.Profile ++ (l.map (fun i => i.Labels)).flatten
        Contributions := p.Contributions + l.length } := by
  induction l generalizing p with
  | nil => simp
  | cons i l ih =>
    rw [List.foldl_cons]
    simp only [updateEntry]
    rw [ih]
    simp only [bumpProfile, List.map_cons, List.flatten_cons, List.foldl_cons,
      List.length_cons, List.append_assoc, Nat.cast_add, Nat.cast_one]
    congr 2
    omega

theorem cleanStep_eq (m : Assignees) (k : String) (hk : k ∈ m.map Prod.fst)
    (hnd : (m.map Prod.fst).Nodup) :
    cleanStep m k
      = .ok (m.map (fun e => if e.1 = k then (e.1, cleanedProfile e.2) else e)) := by
  induction m with
  | nil => simp at hk
  | cons e m ih =>
    obtain ⟨k₀, v₀⟩ := e
    rw [List.map_cons, List.nodup_cons] at hnd
    by_cases h₀ : k₀ = k
    · subst h₀
      have hid : m.map (fun e => if e.1 = k₀ then (e.1, cleanedProfile e.2) else e) = m := by
        conv_rhs => rw [← List.map_id m]
        apply List.map_congr_left
        intro e he
        have : e.1 ≠ k₀ := fun h => hnd.1 (List.mem_map.2 ⟨e, he, h⟩)
        simp [this]
      simp only [cleanStep, mapLookup, mapAssign, stringEq, decide_True, if_true, List.map_cons,
        hid]
      rfl
    · have hk' : k ∈ m.map Prod.fst := by
        rcases List.mem_cons.1 hk with h | h
        · exact absurd h.symm h₀
        · exact h
      have ih' := ih hk' hnd.2
      unfold cleanStep at ih' ⊢
      cases hl : mapLookup stringEq m k with
      | none => rw [hl] at ih'; cases ih'
      | some p =>
        rw [hl] at ih'
        have ih'' := Except.ok.inj ih'
        simp only [mapLookup, stringEq, h₀, decide_False, Bool.false_eq_true, if_false, hl,
          mapAssign, List.map_cons]
        rw [ih'']

theorem keys_map_cleaned (m : Assignees) (ks : List String) :
    (m.map (fun e => if e.1 ∈ ks then (e.1, cleanedProfile e.2) else e)).map Prod.fst
      = m.map Prod.fst := by
  rw [List.map_map]
  apply List.map_congr_left
  intro e _
  simp only [Function.comp]
  split <;> rfl

theorem cleanLoop_eq (ks : List String) (m : Assignees) (hnd : (m.map Prod.fst).Nodup)
    (hks : ks.Nodup) (hsub : ∀ k ∈ ks, k ∈ m.map Prod.fst) :
    cleanLoop ks m
      = .ok (m.map (fun e => if e.1 ∈ ks then (e.1, cleanedProfile e.2) else e)) := by
  induction ks generalizing m with
  | nil => simp [cleanLoop]
  | cons k ks ih =>
    rw [List.nodup_cons] at hks
    have hkeys : (m.map (fun e => if e.1 = k then (e.1, cleanedProfile e.2) else e)).map Prod.fst
        = m.map Prod.fst := by
      have := keys_map_cleaned m [k]
      simpa using this
    simp only [cleanLoop, cleanStep_eq m k (hsub k (List.mem_cons_self _ _)) hnd]
    rw [ih _ (hkeys ▸ hnd) hks.2 (fun k' hk' => hkeys ▸ hsub k' (List.mem_cons_of_mem _ hk'))]
    rw [List.map_map]
    congr 1
    apply List.map_congr_left
    intro e _
    by_cases h : e.1 = k
    · have : e.1 ∉ ks := fun h' => hks.1 (h ▸ h')
      simp [h, this]
      intro h'
      exact absurd h' (h ▸ this)
    · simp [h]

/-- For every visiting order of the last loop, `BuildProfiles` returns the
map of the first loop with `profileFilter` applied to the labels of every
entry. -/
theorem BuildProfiles_eq (issues : List Issue) (ord : List Nat)
    (h : RangeOrder (collectProfiles issues).length ord) :
    BuildProfiles issues ord
      = .ok ((collectProfiles issues).map (fun e => (e.1, cleanedProfile e.2))) := by
  have hperm := (rangeVisit_perm h).map Prod.fst
  have hnd := nodup_keys_collectProfiles issues
  unfold BuildProfiles
  simp only []
  rw [cleanLoop_eq _ _ hnd (hperm.nodup_iff.2 hnd) (fun k hk => hperm.subset hk)]
  congr 1
  apply List.map_congr_left
  intro e he
  have : e.1 ∈ (rangeVisit (collectProfiles issues) ord).map Prod.fst :=
    hperm.symm.subset (List.mem_map_of_mem Prod.fst he)
  simp [this]

/-- The first loop of `BuildProfiles`, entry by entry: the entry of `k` is
made of the issues assigned to `k`, in input order. -/
theorem mapLookup_collectProfiles (issues : List Issue) (k : String) :
    mapLookup stringEq (collectProfiles issues) k =
      match issues.filter (fun i => decide (i.Assignee = k)) with
      | [] => none
      | i :: rest => some
        { Name := k
          LastActive := rest.foldl (fun t j => if j.Resolved > t then j.Resolved else t) i.Resolved
          Profile := labelsOf issues k
          Contributions := (issues.countP (fun i => decide (i.Assignee = k)) : Nat) } := by
  unfold collectProfiles labelsOf
  rw [mapLookup_foldl_profileStep, List.countP_eq_length_filter]
  cases hf : issues.filter (fun i => decide (i.Assignee = k)) with
  | nil => rfl
  | cons i rest =>
    have hi : i.Assignee = k := by
      have : i ∈ issues.filter (fun i => decide (i.Assignee = k)) := hf ▸ List.mem_cons_self _ _
      simpa using (List.mem_filter.1 this).2
    simp only [List.foldl_cons, mapLookup, updateEntry]
    rw [foldl_updateEntry_some]
    simp only [freshProfile, hi, List.map_cons, List.flatten_cons, List.length_cons,
      Nat.cast_add, Nat.cast_one]
    congr 2
    omega

theorem foldl_latest_ge (l : List Issue) (t : Time) :
    t ≤ l.foldl (fun t j => if j.Resolved > t then j.Resolved else t) t ∧
    ∀ i ∈ l, i.Resolved ≤ l.foldl (fun t j => if j.Resolved > t then j.Resolved else t) t := by
  induction l generalizing t with
  | nil => simp
  | cons j l ih =>
    simp only [List.foldl_cons, List.mem_cons, forall_eq_or_imp]
    obtain ⟨h₁, h₂⟩ := ih (if j.Resolved > t then j.Resolved else t)
    refine ⟨?_, ?_, h₂⟩
    · refine le_trans ?_ h₁
      by_cases hj : j.Resolved > t
      · rw [if_pos hj]; exact le_of_lt hj
      · rw [if_neg hj]
    · refine le_trans ?_ h₁
      by_cases hj : j.Resolved > t
      · rw [if_pos hj]
      · rw [if_neg hj]; exact not_lt.1 hj

theorem foldl_latest_mem (l : List Issue) (t : Time) :
    l.foldl (fun t j => if j.Resolved > t then j.Resolved else t) t = t ∨
    ∃ i ∈ l, i.Resolved = l.foldl (fun t j => if j.Resolved > t then j.Resolved else t) t := by
  induction l generalizing t with
  | nil => simp
  | cons j l ih =>
    simp only [List.foldl_cons, List.mem_cons, exists_eq_or_imp]
    rcases ih (if j.Resolved > t then j.Resolved else t) with h | ⟨i, hi, h⟩
    · by_cases hj : j.Resolved > t
      · right; left
        rw [h, if_pos hj]
      · left
        rw [h, if_neg hj]
    · exact Or.inr (Or.inr ⟨i, hi, h⟩)

/-! ### `profileFilter` -/

theorem nodup_firstOccurrences (l : List String) : (firstOccurrences l).Nodup := by
  induction l with
  | nil => simp [firstOccurrences]
  | cons x xs ih =>
    simp only [firstOccurrences, List.nodup_cons, List.mem_filter]
    exact ⟨by simp, ih.filter _⟩

theorem profileFilterLoop_eq (rest : List String) (found : List (String × Bool))
    (clean : List String)
    (hinv : ∀ y, (mapLookup stringEq found y).getD false = true ↔ y ∈ clean) :
    profileFilterLoop rest found clean
      = clean ++ (firstOccurrences rest).filter (fun y => decide (y ∉ clean)) := by
  induction rest generalizing found clean with
  | nil => simp [profileFilterLoop, firstOccurrences]
  | cons x rest ih =>
    by_cases hx : x ∈ clean
    · have hfx : (mapLookup stringEq found x).getD false = true := (hinv x).2 hx
      simp only [profileFilterLoop, hfx, bne_self_eq_false, Bool.false_eq_true, if_false,
        firstOccurrences]
      rw [ih found clean hinv, List.filter_cons_of_neg (by simpa using hx), List.filter_filter]
      congr 1
      apply List.filter_congr
      intro y _
      by_cases hy : y ∈ clean
      · simp [hy]
      · have : y ≠ x := fun h => hy (h ▸ hx)
        simp [hy, this]
    · have hfx : (mapLookup stringEq found x).getD false = false := by
        cases h : (mapLookup stringEq found x).getD false
        · rfl
        · exact absurd ((hinv x).1 h) hx
      have hinv' : ∀ y, (mapLookup stringEq (mapAssign stringEq found x true) y).getD false = true
          ↔ y ∈ clean ++ [x] := by
        intro y
        rw [mapLookup_mapAssign]
        by_cases hxy : x = y
        · simp [hxy]
        · have : ¬ y = x := fun h => hxy h.symm
          simp [hxy, hinv y, this]
      simp only [profileFilterLoop, hfx, firstOccurrences]
      rw [if_pos (by decide), ih _ _ hinv', List.filter_cons_of_pos (by simpa using hx),
        List.filter_filter, List.append_assoc, List.singleton_append]
      congr 2
      apply List.filter_congr
      intro y _
      by_cases hy : y ∈ clean
      · simp [hy]
      · by_cases hyx : y = x <;> simp [hy, hyx]

/-- The function `profileFilter` computes the order-preserving deduplication
of the specification. -/
theorem profileFilter_eq (input : List String) :
    profileFilter input = firstOccurrences input := by
  unfold profileFilter
  rw [profileFilterLoop_eq input [] [] (by simp [mapLookup])]
  simp

/-- The map `BuildProfiles` returns, entry by entry. -/
theorem mapLookup_cleaned_collectProfiles (issues : List Issue) (k : String) :
    mapLookup stringEq ((collectProfiles issues).map (fun e => (e.1, cleanedProfile e.2))) k =
      match issues.filter (fun i => decide (i.Assignee = k)) with
      | [] => none
      | i :: rest => some
        { Name := k
          LastActive := rest.foldl (fun t j => if j.Resolved > t then j.Resolved else t) i.Resolved
          Profile := firstOccurrences (labelsOf issues k)
          Contributions := (issues.countP (fun i => decide (i.Assignee = k)) : Nat) } := by
  rw [mapLookup_map_snd, mapLookup_collectProfiles]
  cases issues.filter (fun i => decide (i.Assignee = k)) with
  | nil => rfl
  | cons i rest => simp [cleanedProfile, profileFilter_eq]

theorem nodup_keys_cleaned_collectProfiles (issues : List Issue) :
    (((collectProfiles issues).map (fun e => (e.1, cleanedProfile e.2))).map Prod.fst).Nodup := by
  rw [List.map_map]
  exact nodup_keys_collectProfiles issues

theorem filter_assignee_ne_nil (issues : List Issue) (k : String) :
    issues.filter (fun i => decide (i.Assignee = k)) ≠ [] ↔ ∃ i ∈ issues, i.Assignee = k := by
  constructor
  · intro h
    obtain ⟨i, hi⟩ := List.exists_mem_of_ne_nil _ h
    exact ⟨i, (List.mem_filter.1 hi).1, by simpa using (List.mem_filter.1 hi).2⟩
  · rintro ⟨i, hi, hk⟩ h
    have : i ∈ issues.filter (fun i => decide (i.Assignee = k)) :=
      List.mem_filter.2 ⟨hi, by simpa using hk⟩
    rw [h] at this
    exact absurd this (List.not_mem_nil _)

end ProfileLemmas

/-! ## Lemmas: `FoldImplementation` -/

section FoldLemmas

variable {σ μ : Type}

theorem countedCorrect_eq (m : Model σ μ) (s : σ) (test : List ExpandedIssue) :
    countedCorrect m s test = test.countP (firstHit m s) := rfl

theorem expectedLabel_of_login {r : ExpandedIssue} {login : String}
    (h : firstAssigneeLogin r = .ok login) : expectedLabel r = .ok login := by
  unfold expectedLabel
  cases ha : r.Issue.Assignees with
  | none => simp [firstAssigneeLogin, ha] at h
  | some l => simpa using h

theorem expectedLoop_returns (test : List ExpandedIssue) (acc : List String)
    (h : ∀ r ∈ test, ∃ login, firstAssigneeLogin r = .ok login) :
    ∃ e, expectedLoop test acc = .ok e ∧ e.length = acc.length + test.length := by
  induction test generalizing acc with
  | nil => exact ⟨acc, rfl, rfl⟩
  | cons r test ih =>
    obtain ⟨login, hl⟩ := h r (List.mem_cons_self _ _)
    obtain ⟨e, he, hlen⟩ := ih (acc ++ [login]) (fun r' hr' => h r' (List.mem_cons_of_mem _ hr'))
    refine ⟨e, ?_, ?_⟩
    · simp only [expectedLoop, expectedLabel_of_login hl]
      exact he
    · simp only [List.length_append, List.length_cons, List.length_nil] at hlen ⊢
      omega

/-- One round of the second loop that returns: the count goes up by one
exactly when the first candidate is the true label, and `predicted` grows by
one label exactly when `Predict` proposed a candidate. -/
theorem predictStep_ok (m : Model σ μ) (s : σ) (r : ExpandedIssue)
    (predicted : List String) (correct : Nat) (p : List String) (c : Nat)
    (h : predictStep m s r predicted correct = .ok (p, c)) :
    c = correct + (if firstHit m s r then 1 else 0) ∧
    p.length = predicted.length + (if m.Predict s r = [] then 0 else 1) := by
  unfold predictStep at h
  cases hl : firstAssigneeLogin r with
  | error e => rw [hl] at h; cases h
  | ok login =>
    rw [hl] at h
    simp only [] at h
    cases hp : m.Predict s r with
    | nil =>
      rw [hp] at h
      simp only [candidateLoop, List.length_nil] at h
      simp at h
      simp [firstHit, hp, h.1, h.2]
    | cons candidate rest =>
      rw [hp] at h
      have hlen : 0 < (if (candidate :: rest).length < 5 then (candidate :: rest).length else 5) := by
        split <;> simp
      simp only [candidateLoop, hlen, if_true, List.getElem?_cons_zero, hl] at h
      by_cases hc : candidate = login
      · rw [if_pos hc] at h
        have h' := Except.ok.inj h
        simp only [Prod.mk.injEq] at h'
        simp [firstHit, hp, hl, hc, ← h'.1, ← h'.2]
      · rw [if_neg hc] at h
        have h' := Except.ok.inj h
        simp only [Prod.mk.injEq] at h'
        simp [firstHit, hp, hl, hc, ← h'.1, ← h'.2]

theorem predictStep_returns (m : Model σ μ) (s : σ) (r : ExpandedIssue)
    (predicted : List String) (correct : Nat)
    (hl : ∃ login, firstAssigneeLogin r = .ok login) (hp : m.Predict s r ≠ []) :
    ∃ p c, predictStep m s r predicted correct = .ok (p, c) := by
  obtain ⟨login, hl⟩ := hl
  cases hq : m.Predict s r with
  | nil => exact absurd hq hp
  | cons candidate rest =>
    have hlen : 0 < (if (candidate :: rest).length < 5 then (candidate :: rest).length else 5) := by
      split <;> simp
    by_cases hc : candidate = login
    · exact ⟨predicted ++ [candidate], correct + 1, by
        simp only [predictStep, hl, hq, candidateLoop, hlen, if_true, List.getElem?_cons_zero,
          if_pos hc]⟩
    · exact ⟨predicted ++ [candidate], correct, by
        simp only [predictStep, hl, hq, candidateLoop, hlen, if_true, List.getElem?_cons_zero,
          if_neg hc]⟩

theorem predictLoop_ok (m : Model σ μ) (s : σ) (test : List ExpandedIssue)
    (predicted : List String) (correct : Nat) (p : List String) (c : Nat)
    (h : predictLoop m s test predicted correct = .ok (p, c)) :
    c = correct + countedCorrect m s test ∧
    p.length = predicted.length + test.countP (fun r => decide (m.Predict s r ≠ [])) := by
  induction test generalizing predicted correct with
  | nil =>
    simp only [predictLoop] at h
    have h' := Except.ok.inj h
    simp only [Prod.mk.injEq] at h'
    simp [countedCorrect, h'.1, h'.2]
  | cons r test ih =>
    simp only [predictLoop] at h
    cases hs : predictStep m s r predicted correct with
    | error e => rw [hs] at h; cases h
    | ok pc =>
      obtain ⟨p₁, c₁⟩ := pc
      rw [hs] at h
      obtain ⟨hc₁, hp₁⟩ := predictStep_ok m s r predicted correct p₁ c₁ hs
      obtain ⟨hc, hp⟩ := ih p₁ c₁ h
      rw [countedCorrect_eq] at hc ⊢
      rw [List.countP_cons, List.countP_cons]
      constructor
      · rw [hc, hc₁]; omega
      · rw [hp, hp₁]
        by_cases hq : m.Predict s r = []
        · simp [hq]
        · simp [hq]; omega

theorem predictLoop_returns (m : Model σ μ) (s : σ) (test : List ExpandedIssue)
    (predicted : List String) (correct : Nat)
    (h : ∀ r ∈ test, (∃ login, firstAssigneeLogin r = .ok login) ∧ m.Predict s r ≠ []) :
    ∃ p c, predictLoop m s test predicted correct = .ok (p, c) ∧
      p.length = predicted.length + test.length := by
  induction test generalizing predicted correct with
  | nil => exact ⟨predicted, correct, rfl, rfl⟩
  | cons r test ih =>
    obtain ⟨hl, hp⟩ := h r (List.mem_cons_self _ _)
    obtain ⟨p₁, c₁, hs⟩ := predictStep_returns m s r predicted correct hl hp
    obtain ⟨p, c, hpc, hlen⟩ := ih p₁ c₁ (fun r' hr' => h r' (List.mem_cons_of_mem _ hr'))
    refine ⟨p, c, ?_, ?_⟩
    · simp only [predictLoop, hs]
      exact hpc
    · have := (predictStep_ok m s r predicted correct p₁ c₁ hs).2
      rw [hlen, this, if_neg hp, List.length_cons]
      omega

/-- A call of `FoldImplementation` that returns, returns the quotient of the
records counted correct by the length of `test`. -/
theorem FoldImplementation_score (m : Model σ μ) (s : σ) (train test : List ExpandedIssue)
    (res : FoldResult σ μ) (h : FoldImplementation m s train test = .ok res) :
    res.score = accuracy (countedCorrect m (m.Learn s train) test) test.length := by
  unfold FoldImplementation at h
  cases he : expectedLoop test [] with
  | error e => rw [he] at h; cases h
  | ok expected =>
    rw [he] at h
    simp only [] at h
    cases hp : predictLoop m (m.Learn s train) test [] 0 with
    | error e => rw [hp] at h; cases h
    | ok pc =>
      obtain ⟨predicted, correct⟩ := pc
      rw [hp] at h
      simp only [] at h
      cases hb : m.BuildMatrix expected predicted with
      | none => rw [hb] at h; cases h
      | some md =>
        obtain ⟨mat, dist⟩ := md
        rw [hb] at h
        have h' := Except.ok.inj h
        have hc := (predictLoop_ok m _ test [] 0 predicted correct hp).1
        rw [← h', hc, Nat.zero_add]

/-- When every record of `test` has a first assignee with a login, `Predict`
proposes a candidate for each of them, and `BuildMatrix` accepts label
sequences of equal length, `FoldImplementation` returns. -/
theorem FoldImplementation_returns (m : Model σ μ) (s : σ) (train test : List ExpandedIssue)
    (hBM : ∀ e p : List String, e.length = p.length → (m.BuildMatrix e p).isSome = true)
    (h : ∀ r ∈ test, (∃ login, firstAssigneeLogin r = .ok login) ∧
      m.Predict (m.Learn s train) r ≠ []) :
    ∃ res, FoldImplementation m s train test = .ok res := by
  obtain ⟨e, he, hel⟩ := expectedLoop_returns test [] (fun r hr => (h r hr).1)
  obtain ⟨p, c, hp, hpl⟩ := predictLoop_returns m (m.Learn s train) test [] 0 h
  obtain ⟨md, hmd⟩ := Option.isSome_iff_exists.1 (hBM e p (by rw [hel, hpl]))
  obtain ⟨mat, dist⟩ := md
  exact ⟨{ score := accuracy c test.length, mat := mat, dist := dist, state := m.Learn s train },
    by simp only [FoldImplementation, he, hp, hmd]⟩

end FoldLemmas

/-! ## Properties of `Tossing` -/

section TossingClaims

theorem rat_three_tenths : (0.3 : ℚ) = mkRat 3 10 := by norm_num

theorem rat_nine_tenths : (0.9 : ℚ) = mkRat 9 10 := by norm_num

theorem rat_one_tenth : (0.1 : ℚ) = mkRat 1 10 := by norm_num

/-- C1: on the score vector `[0.3, 0.9, 0.9, 0.1]` with `K = 2`, for which
the specification asks `[1, 2]`, `Tossing` returns `[1, 1]` or `[2, 2]`
whatever the order in which the two `range` loops visit `scoreMap`: the two
indices with the score 0.9 share one key of `flipScoreMap`. -/
theorem Tossing_tie_example (ord₁ ord₂ : List Nat)
    (h₁ : RangeOrder 4 ord₁) (h₂ : RangeOrder 4 ord₂) :
    Tossing [Float64.val (0.3 : ℚ), .val 0.9, .val 0.9, .val 0.1] 2 ord₁ ord₂ = .ok [1, 1] ∨
    Tossing [Float64.val (0.3 : ℚ), .val 0.9, .val 0.9, .val 0.1] 2 ord₁ ord₂ = .ok [2, 2] := by
  have key : ∀ o₁ ∈ (List.range 4).permutations', ∀ o₂ ∈ (List.range 4).permutations',
      Tossing [Float64.val (0.3 : ℚ), .val 0.9, .val 0.9, .val 0.1] 2 o₁ o₂ = .ok [1, 1] ∨
      Tossing [Float64.val (0.3 : ℚ), .val 0.9, .val 0.9, .val 0.1] 2 o₁ o₂ = .ok [2, 2] := by
    rw [rat_three_tenths, rat_nine_tenths, rat_one_tenth]
    decide
  exact key ord₁ (List.mem_permutations'.2 h₁) ord₂ (List.mem_permutations'.2 h₂)

/-- The theorem `Tossing_tie_example` at two visiting orders. -/
theorem Tossing_tie_example_witness :
    RangeOrder 4 [0, 1, 2, 3] ∧ RangeOrder 4 [3, 1, 2, 0] ∧
    (Tossing [Float64.val (0.3 : ℚ), .val 0.9, .val 0.9, .val 0.1] 2 [0, 1, 2, 3] [3, 1, 2, 0]
        = .ok [1, 1] ∨
      Tossing [Float64.val (0.3 : ℚ), .val 0.9, .val 0.9, .val 0.1] 2 [0, 1, 2, 3] [3, 1, 2, 0]
        = .ok [2, 2]) :=
  ⟨by decide, by decide, Tossing_tie_example [0, 1, 2, 3] [3, 1, 2, 0] (by decide) (by decide)⟩

/-- C2 (as stated, refuted): the one-element score vector `[NaN]` with
`K = 1` gives the empty list, not a list of length `min(max(1, 0), 1) = 1`. -/
theorem Tossing_NaN_shorter :
    RangeOrder 1 [0] ∧
    Tossing [(Float64.NaN : Float64 ℚ)] 1 [0] [0] = .ok [] ∧
    ¬ ∃ r, Tossing [(Float64.NaN : Float64 ℚ)] 1 [0] [0] = .ok r ∧
      (r.length : Int) = min (max 1 0) (([(Float64.NaN : Float64 ℚ)].length : Nat) : Int) := by
  refine ⟨by decide, by decide, ?_⟩
  rintro ⟨r, hr, hl⟩
  have h : Tossing [(Float64.NaN : Float64 ℚ)] 1 [0] [0] = .ok [] := by decide
  rw [h] at hr
  cases hr
  simp at hl

/-- C2 (amended): for every score vector of length `N` (`N = 0` included),
every integer `K` and every visiting order of the two `range` loops,
`Tossing(scores, K)` returns without fault a list of length at most
`min(max(K, 0), N)`, and of length exactly `min(max(K, 0), N)` when no score
is NaN. -/
theorem Tossing_length {α : Type} [LinearOrder α] (scores : List (Float64 α)) (top : Int)
    (ord₁ ord₂ : List Nat)
    (h₁ : RangeOrder scores.length ord₁) (h₂ : RangeOrder scores.length ord₂) :
    ∃ r, Tossing scores top ord₁ ord₂ = .ok r ∧
      (r.length : Int) ≤ min (max top 0) (scores.length : Int) ∧
      ((∀ s ∈ scores, s.isNaN = false) →
        (r.length : Int) = min (max top 0) (scores.length : Int)) := by
  have hperm := scoreValues_perm scores h₁
  have hflip := rangeVisit_scoreMap_perm scores h₂
  obtain ⟨r, hr, hle, heq⟩ := tossLoop_length
    (sortReverse ((rangeVisit (buildScoreMap scores) ord₁).map Prod.snd))
    (buildFlipScoreMap (rangeVisit (buildScoreMap scores) ord₂))
    (if (scores.length : Int) < top then (scores.length : Int) else top).toNat 0 []
    (by rw [hperm.length_eq]; split <;> omega)
  refine ⟨r, hr, ?_, ?_⟩
  · simp only [List.length_nil, Nat.zero_add] at hle
    split at hle <;> omega
  · intro hnan
    have := heq (fun s hs => flipScoreMap_isSome _ s (hnan s (hperm.subset hs))
      (hflip.symm.subset (hperm.subset hs)))
    simp only [List.length_nil, Nat.zero_add] at this
    split at this <;> omega

/-- The theorem `Tossing_length` at a score vector with a tie and `K = 3`. -/
theorem Tossing_length_witness :
    RangeOrder [Float64.val (3 : ℚ), .val 9, .val 9, .val 1].length [0, 1, 2, 3] ∧
    RangeOrder [Float64.val (3 : ℚ), .val 9, .val 9, .val 1].length [2, 0, 3, 1] ∧
    ∃ r, Tossing [Float64.val (3 : ℚ), .val 9, .val 9, .val 1] 3 [0, 1, 2, 3] [2, 0, 3, 1]
        = .ok r ∧
      (r.length : Int) ≤ min (max 3 0)
        (([Float64.val (3 : ℚ), .val 9, .val 9, .val 1].length : Nat) : Int) ∧
      ((∀ s ∈ [Float64.val (3 : ℚ), .val 9, .val 9, .val 1], s.isNaN = false) →
        (r.length : Int) = min (max 3 0)
          (([Float64.val (3 : ℚ), .val 9, .val 9, .val 1].length : Nat) : Int)) :=
  ⟨by decide, by decide,
    Tossing_length [Float64.val (3 : ℚ), .val 9, .val 9, .val 1] 3 [0, 1, 2, 3] [2, 0, 3, 1]
      (by decide) (by decide)⟩

/-- C3: `Tossing` is not deterministic.  On the score vector `[0.9, 0.9]`
the two visiting orders of the loop of line 74 give different results for
`K = 1`, and for `K = 2` one index is returned twice and the other is lost. -/
theorem Tossing_not_deterministic :
    RangeOrder 2 [0, 1] ∧ RangeOrder 2 [1, 0] ∧
    Tossing [Float64.val (0.9 : ℚ), .val 0.9] 1 [0, 1] [0, 1] = .ok [1] ∧
    Tossing [Float64.val (0.9 : ℚ), .val 0.9] 1 [0, 1] [1, 0] = .ok [0] ∧
    Tossing [Float64.val (0.9 : ℚ), .val 0.9] 2 [0, 1] [0, 1] = .ok [1, 1] ∧
    Tossing [Float64.val (0.9 : ℚ), .val 0.9] 2 [0, 1] [1, 0] = .ok [0, 0] := by
  rw [rat_nine_tenths]
  decide

end TossingClaims

/-! ## Properties of `BuildProfiles` -/

section ProfileClaims

/-- C4: for every list of issues and every visiting order of the last loop,
`BuildProfiles` returns a map whose keys are, each once, exactly the assignee
names that occur in the list (so the map of the empty list is empty); the
profile under the key `k` has the name `k`, and its `Contributions` is the
number of issues of the list whose assignee is `k`. -/
theorem BuildProfiles_keys_contributions (issues : List Issue) (ord : List Nat)
    (h : RangeOrder (collectProfiles issues).length ord) :
    ∃ profiles, BuildProfiles issues ord = .ok profiles ∧
      (profiles.map Prod.fst).Nodup ∧
      (∀ k, k ∈ profiles.map Prod.fst ↔ ∃ i ∈ issues, i.Assignee = k) ∧
      (issues = [] → profiles = []) ∧
      (∀ k p, (k, p) ∈ profiles →
        mapLookup stringEq profiles k = some p ∧ p.Name = k ∧
        p.Contributions = (issues.countP (fun i => decide (i.Assignee = k)) : Nat)) := by
  refine ⟨_, BuildProfiles_eq issues ord h, nodup_keys_cleaned_collectProfiles issues, ?_, ?_, ?_⟩
  · intro k
    rw [← filter_assignee_ne_nil, ← not_iff_not, ← mapLookup_eq_none_iff,
      mapLookup_cleaned_collectProfiles]
    cases issues.filter (fun i => decide (i.Assignee = k)) <;> simp
  · rintro rfl
    rfl
  · intro k p hkp
    have hl := (mapLookup_eq_some_iff _ (nodup_keys_cleaned_collectProfiles issues) k p).2 hkp
    refine ⟨hl, ?_⟩
    rw [mapLookup_cleaned_collectProfiles] at hl
    cases hf : issues.filter (fun i => decide (i.Assignee = k)) with
    | nil => rw [hf] at hl; cases hl
    | cons i rest =>
      rw [hf] at hl
      have := Option.some.inj hl
      subst this
      exact ⟨rfl, rfl⟩

/-- The theorem `BuildProfiles_keys_contributions` at `sampleIssues`. -/
theorem BuildProfiles_keys_contributions_witness :
    RangeOrder (collectProfiles sampleIssues).length [1, 0] ∧
    ∃ profiles, BuildProfiles sampleIssues [1, 0] = .ok profiles ∧
      (profiles.map Prod.fst).Nodup ∧
      (∀ k, k ∈ profiles.map Prod.fst ↔ ∃ i ∈ sampleIssues, i.Assignee = k) ∧
      (sampleIssues = [] → profiles = []) ∧
      (∀ k p, (k, p) ∈ profiles →
        mapLookup stringEq profiles k = some p ∧ p.Name = k ∧
        p.Contributions = (sampleIssues.countP (fun i => decide (i.Assignee = k)) : Nat)) :=
  ⟨by decide, BuildProfiles_keys_contributions sampleIssues [1, 0] (by decide)⟩

/-- C5: for every list of issues and every visiting order of the last loop,
no profile of the map `BuildProfiles` returns has a label twice in its label
list `Profile`. -/
theorem BuildProfiles_labels_nodup (issues : List Issue) (ord : List Nat)
    (h : RangeOrder (collectProfiles issues).length ord) :
    ∃ profiles, BuildProfiles issues ord = .ok profiles ∧
      ∀ e ∈ profiles, e.2.Profile.Nodup := by
  refine ⟨_, BuildProfiles_eq issues ord h, ?_⟩
  intro e he
  obtain ⟨e', _, rfl⟩ := List.mem_map.1 he
  simp only [cleanedProfile, profileFilter_eq]
  exact nodup_firstOccurrences _

/-- The theorem `BuildProfiles_labels_nodup` at `sampleIssues`. -/
theorem BuildProfiles_labels_nodup_witness :
    RangeOrder (collectProfiles sampleIssues).length [0, 1] ∧
    ∃ profiles, BuildProfiles sampleIssues [0, 1] = .ok profiles ∧
      ∀ e ∈ profiles, e.2.Profile.Nodup :=
  ⟨by decide, BuildProfiles_labels_nodup sampleIssues [0, 1] (by decide)⟩

/-- C7: for every list of issues, every assignee name `k` in it and every
visiting order of the last loop, the `LastActive` of `BuildProfiles(issues)[k]`
is the maximum of the `Resolved` timestamps of the issues assigned to `k`: it
is the timestamp of one of them and none of them has a later one. -/
theorem BuildProfiles_lastActive (issues : List Issue) (ord : List Nat) (k : String)
    (h : RangeOrder (collectProfiles issues).length ord)
    (hk : ∃ i ∈ issues, i.Assignee = k) :
    ∃ profiles p, BuildProfiles issues ord = .ok profiles ∧
      mapLookup stringEq profiles k = some p ∧
      (∃ i ∈ issues, i.Assignee = k ∧ i.Resolved = p.LastActive) ∧
      (∀ i ∈ issues, i.Assignee = k → i.Resolved ≤ p.LastActive) := by
  have hl := mapLookup_cleaned_collectProfiles issues k
  cases hf : issues.filter (fun i => decide (i.Assignee = k)) with
  | nil => exact absurd hf ((filter_assignee_ne_nil issues k).2 hk)
  | cons i rest =>
    rw [hf] at hl
    have hmem : ∀ j, j ∈ i :: rest ↔ j ∈ issues ∧ j.Assignee = k := by
      intro j
      rw [← hf, List.mem_filter]
      simp
    refine ⟨_, _, BuildProfiles_eq issues ord h, hl, ?_, ?_⟩
    · rcases foldl_latest_mem rest i.Resolved with heq | ⟨j, hj, heq⟩
      · have := (hmem i).1 (List.mem_cons_self _ _)
        exact ⟨i, this.1, this.2, heq.symm⟩
      · have := (hmem j).1 (List.mem_cons_of_mem _ hj)
        exact ⟨j, this.1, this.2, heq⟩
    · intro j hj hjk
      rcases List.mem_cons.1 ((hmem j).2 ⟨hj, hjk⟩) with rfl | hj'
      · exact (foldl_latest_ge rest j.Resolved).1
      · exact (foldl_latest_ge rest i.Resolved).2 j hj'

/-- The theorem `BuildProfiles_lastActive` at `sampleIssues` and the name
"Mike". -/
theorem BuildProfiles_lastActive_witness :
    RangeOrder (collectProfiles sampleIssues).length [0, 1] ∧
    (∃ i ∈ sampleIssues, i.Assignee = "Mike") ∧
    ∃ profiles p, BuildProfiles sampleIssues [0, 1] = .ok profiles ∧
      mapLookup stringEq profiles "Mike" = some p ∧
      (∃ i ∈ sampleIssues, i.Assignee = "Mike" ∧ i.Resolved = p.LastActive) ∧
      (∀ i ∈ sampleIssues, i.Assignee = "Mike" → i.Resolved ≤ p.LastActive) :=
  ⟨by decide, by decide,
    BuildProfiles_lastActive sampleIssues [0, 1] "Mike" (by decide) (by decide)⟩

end ProfileClaims

/-! ## Properties of `FoldImplementation` -/

section FoldClaims

variable {σ μ : Type}

theorem specBuildMatrix_isSome (e p : List String) (h : e.length = p.length) :
    (specBuildMatrix e p).isSome = true := by
  simp [specBuildMatrix, h]

/-- C9 (as stated, refuted): with an empty test set `FoldImplementation`
declares no error; it returns, and the accuracy it returns is the NaN of
`0 / 0`. -/
theorem FoldImplementation_empty_test_NaN :
    FoldImplementation sampleModel () hitTest []
      = .ok { score := Float64.NaN, mat := [], dist := [], state := () } :=
  rfl

/-- C9 (amended): called with an empty test set, `FoldImplementation`
declares no error of its own: it calls `Learn` and then `BuildMatrix` on two
empty label sequences, and when `BuildMatrix` reports no error it returns
the accuracy `0 / 0`, which is NaN; it stops, by the panic of line 92, only
when `BuildMatrix` reports an error. -/
theorem FoldImplementation_empty_test (m : Model σ μ) (s : σ) (train : List ExpandedIssue) :
    FoldImplementation m s train [] =
      match m.BuildMatrix [] [] with
      | none => .error Fault.matrixPanic
      | some (mat, dist) =>
        .ok { score := Float64.NaN, mat := mat, dist := dist, state := m.Learn s train } := by
  simp only [FoldImplementation, expectedLoop, predictLoop]
  cases m.BuildMatrix [] [] with
  | none => rfl
  | some md => rfl

/-- C10: for every non-empty test set and a `BuildMatrix` that accepts label
sequences of equal length: when, for every test record, the first candidate
of `Predict` is the login of the record's first assignee,
`FoldImplementation` returns the accuracy 1; when, for every test record,
`Predict` proposes a non-empty list that does not contain that login,
`FoldImplementation` returns the accuracy 0. -/
theorem FoldImplementation_all_or_nothing (m : Model σ μ) (s : σ)
    (train test : List ExpandedIssue) (hne : test ≠ [])
    (hBM : ∀ e p : List String, e.length = p.length → (m.BuildMatrix e p).isSome = true) :
    ((∀ r ∈ test, ∃ login, firstAssigneeLogin r = .ok login ∧
        (m.Predict (m.Learn s train) r).head? = some login) →
      ∃ res, FoldImplementation m s train test = .ok res ∧ res.score = Float64.val 1) ∧
    ((∀ r ∈ test, ∃ login, firstAssigneeLogin r = .ok login ∧
        m.Predict (m.Learn s train) r ≠ [] ∧ login ∉ m.Predict (m.Learn s train) r) →
      ∃ res, FoldImplementation m s train test = .ok res ∧ res.score = Float64.val 0) := by
  have hlen : test.length ≠ 0 := fun h => hne (List.length_eq_zero.1 h)
  have hq : ((test.length : ℕ) : ℚ) ≠ 0 := by exact_mod_cast hlen
  constructor
  · intro h
    obtain ⟨res, hres⟩ := FoldImplementation_returns m s train test hBM (fun r hr => by
      obtain ⟨login, hl, hp⟩ := h r hr
      exact ⟨⟨login, hl⟩, fun hnil => by rw [hnil] at hp; cases hp⟩)
    refine ⟨res, hres, ?_⟩
    have hall : countedCorrect m (m.Learn s train) test = test.length := by
      rw [countedCorrect, List.countP_eq_length]
      intro r hr
      obtain ⟨login, hl, hp⟩ := h r hr
      simp [firstHit, hl, hp]
    rw [FoldImplementation_score m s train test res hres, accuracy, if_neg hlen, hall,
      div_self hq]
  · intro h
    obtain ⟨res, hres⟩ := FoldImplementation_returns m s train test hBM (fun r hr => by
      obtain ⟨login, hl, hp, _⟩ := h r hr
      exact ⟨⟨login, hl⟩, hp⟩)
    refine ⟨res, hres, ?_⟩
    have hnone : countedCorrect m (m.Learn s train) test = 0 := by
      rw [countedCorrect, List.countP_eq_zero]
      intro r hr
      obtain ⟨login, hl, hp, hnot⟩ := h r hr
      cases hc : m.Predict (m.Learn s train) r with
      | nil => exact absurd hc hp
      | cons candidate rest =>
        have : candidate ≠ login := fun heq => hnot (by rw [hc, heq]; exact List.mem_cons_self _ _)
        simp [firstHit, hl, hc, this]
    rw [FoldImplementation_score m s train test res hres, accuracy, if_neg hlen, hnone]
    simp

/-- The theorem `FoldImplementation_all_or_nothing` at `sampleModel`: the
accuracy is 1 on `hitTest` and 0 on `missTest`. -/
theorem FoldImplementation_all_or_nothing_witness :
    (∃ res, FoldImplementation sampleModel () mixedTest hitTest = .ok res ∧
      res.score = Float64.val 1) ∧
    (∃ res, FoldImplementation sampleModel () mixedTest missTest = .ok res ∧
      res.score = Float64.val 0) :=
  ⟨(FoldImplementation_all_or_nothing sampleModel () mixedTest hitTest (by decide)
      specBuildMatrix_isSome).1 (by
        intro r hr
        simp only [hitTest, List.mem_cons, List.mem_singleton, List.not_mem_nil,
          or_false] at hr
        rcases hr with rfl | rfl <;> exact ⟨_, rfl, rfl⟩),
    (FoldImplementation_all_or_nothing sampleModel () mixedTest missTest (by decide)
      specBuildMatrix_isSome).2 (by
        intro r hr
        simp only [missTest, List.mem_cons, List.mem_singleton, List.not_mem_nil,
          or_false] at hr
        rcases hr with rfl | rfl <;> exact ⟨_, rfl, by decide, by decide⟩)⟩

end FoldClaims

/-! ## More properties of `FoldImplementation` -/

section FoldClaims₂

variable {σ μ : Type}

theorem specBuildMatrix_none (e p : List String) (h : e.length ≠ p.length) :
    specBuildMatrix e p = none := by
  simp [specBuildMatrix, h]

theorem predictStep_returns_of_login (m : Model σ μ) (s : σ) (r : ExpandedIssue)
    (predicted : List String) (correct : Nat)
    (hl : ∃ login, firstAssigneeLogin r = .ok login) :
    ∃ p c, predictStep m s r predicted correct = .ok (p, c) := by
  by_cases hp : m.Predict s r = []
  · obtain ⟨login, hl⟩ := hl
    exact ⟨predicted, correct, by simp [predictStep, hl, hp, candidateLoop]⟩
  · exact predictStep_returns m s r predicted correct hl hp

theorem predictLoop_returns_of_login (m : Model σ μ) (s : σ) (test : List ExpandedIssue)
    (predicted : List String) (correct : Nat)
    (h : ∀ r ∈ test, ∃ login, firstAssigneeLogin r = .ok login) :
    ∃ p c, predictLoop m s test predicted correct = .ok (p, c) := by
  induction test generalizing predicted correct with
  | nil => exact ⟨predicted, correct, rfl⟩
  | cons r test ih =>
    obtain ⟨p₁, c₁, hs⟩ :=
      predictStep_returns_of_login m s r predicted correct (h r (List.mem_cons_self _ _))
    obtain ⟨p, c, hpc⟩ := ih p₁ c₁ (fun r' hr' => h r' (List.mem_cons_of_mem _ hr'))
    exact ⟨p, c, by simp only [predictLoop, hs]; exact hpc⟩

/-- C11: the record whose candidates are `["Anna", "Mike"]` and whose true
label is "Mike" has its true label among its first `min(5, 2)` candidates,
and is not counted as correct: the loop of lines 78-87 compares the first
candidate only, records it as predicted and leaves `correct` at 0, so the
fold returns the accuracy 0. -/
theorem FoldImplementation_second_candidate_missed :
    sampleModel.Predict () (sampleRecord "Anna" "Mike") = ["Anna", "Mike"] ∧
    firstAssigneeLogin (sampleRecord "Anna" "Mike") = .ok "Mike" ∧
    "Mike" ∈ (sampleModel.Predict () (sampleRecord "Anna" "Mike")).take (min 5 2) ∧
    predictStep sampleModel () (sampleRecord "Anna" "Mike") [] 0 = .ok (["Anna"], 0) ∧
    ∃ res, FoldImplementation sampleModel () [] [sampleRecord "Anna" "Mike"] = .ok res ∧
      res.score = Float64.val 0 := by
  refine ⟨rfl, rfl, by decide, by decide, _, rfl, ?_⟩
  show accuracy 0 1 = Float64.val 0
  simp [accuracy]

/-- C12: a test record whose `Issue.Assignees` is nil passes the first loop,
which takes the login of the pull request instead (line 65), and stops the
second loop at line 72 with an index out of range; a record whose
`Issue.Assignees` is not nil and empty stops the first loop at line 63 with an
index out of range.  No error is declared in either case. -/
theorem FoldImplementation_missing_assignee :
    expectedLoop [unassignedRecord] [] = .ok ["Mike"] ∧
    FoldImplementation sampleModel () [] [unassignedRecord] = .error Fault.indexOutOfRange ∧
    FoldImplementation sampleModel () [] [emptyAssigneesRecord]
      = .error Fault.indexOutOfRange := by
  exact ⟨by decide, rfl, rfl⟩

/-- C19: for every test set whose records all have a first assignee with a
login, the two loops of `FoldImplementation` return, and `predicted` is as
long as `expected` exactly when `Predict` proposed a candidate for every
record; as soon as one list of candidates is empty `predicted` is strictly
shorter than `expected`, and with a `BuildMatrix` that rejects sequences of
different lengths the fold ends in the panic of line 92. -/
theorem FoldImplementation_predicted_length (m : Model σ μ) (s : σ)
    (train test : List ExpandedIssue)
    (hgt : ∀ r ∈ test, ∃ login, firstAssigneeLogin r = .ok login) :
    ∃ expected predicted correct,
      expectedLoop test [] = .ok expected ∧
      predictLoop m (m.Learn s train) test [] 0 = .ok (predicted, correct) ∧
      (predicted.length = expected.length ↔
        ∀ r ∈ test, m.Predict (m.Learn s train) r ≠ []) ∧
      ((∃ r ∈ test, m.Predict (m.Learn s train) r = []) →
        predicted.length < expected.length ∧
        ((∀ e p : List String, e.length ≠ p.length → m.BuildMatrix e p = none) →
          FoldImplementation m s train test = .error Fault.matrixPanic)) := by
  obtain ⟨expected, he, hel⟩ := expectedLoop_returns test [] hgt
  obtain ⟨predicted, correct, hp⟩ :=
    predictLoop_returns_of_login m (m.Learn s train) test [] 0 hgt
  have hpl := (predictLoop_ok m _ test [] 0 predicted correct hp).2
  simp only [List.length_nil, Nat.zero_add] at hel hpl
  have hiff : predicted.length = expected.length ↔
      ∀ r ∈ test, m.Predict (m.Learn s train) r ≠ [] := by
    rw [hel, hpl, List.countP_eq_length]
    simp
  refine ⟨expected, predicted, correct, he, hp, hiff, ?_⟩
  rintro ⟨r, hr, hnil⟩
  have hne : predicted.length ≠ expected.length := fun h => (hiff.1 h) r hr hnil
  have hle : predicted.length ≤ expected.length := by
    rw [hel, hpl]; exact List.countP_le_length _
  refine ⟨lt_of_le_of_ne hle hne, fun hBM => ?_⟩
  simp only [FoldImplementation, he, hp, hBM expected predicted (Ne.symm hne)]

/-- The theorem `FoldImplementation_predicted_length` at `sampleModel` and a
test set with one record for which it proposes no candidate. -/
theorem FoldImplementation_predicted_length_witness :
    (∀ r ∈ [sampleRecord "Mike" "Mike", silentRecord],
      ∃ login, firstAssigneeLogin r = .ok login) ∧
    predictLoop sampleModel () [sampleRecord "Mike" "Mike", silentRecord] [] 0
      = .ok (["Mike"], 1) ∧
    FoldImplementation sampleModel () hitTest [sampleRecord "Mike" "Mike", silentRecord]
      = .error Fault.matrixPanic := by
  have hgt : ∀ r ∈ [sampleRecord "Mike" "Mike", silentRecord],
      ∃ login, firstAssigneeLogin r = .ok login := by
    intro r hr
    simp only [List.mem_cons, List.mem_singleton, List.not_mem_nil, or_false] at hr
    rcases hr with rfl | rfl <;> exact ⟨_, rfl⟩
  obtain ⟨_, _, _, _, _, _, h⟩ :=
    FoldImplementation_predicted_length sampleModel () hitTest
      [sampleRecord "Mike" "Mike", silentRecord] hgt
  exact ⟨hgt, by decide, (h ⟨silentRecord, by simp, rfl⟩).2 specBuildMatrix_none⟩

end FoldClaims₂

/-! ## `Tossing` on pairwise distinct scores -/

section TossingDistinct

variable {α : Type} [LinearOrder α]

theorem Float64.eq_of_eq_true {x y : Float64 α} (h : Float64.eq x y = true) : x = y := by
  cases x <;> cases y <;> simp_all [Float64.eq]

theorem Float64.lt_of_revLE_of_ne {x y : Float64 α} (hx : x.isNaN = false)
    (hy : y.isNaN = false) (h : Float64.revLE x y) (hne : x ≠ y) :
    Float64.lt y x = true := by
  cases x <;> cases y <;> simp_all [Float64.revLE, Float64.less, Float64.lt, Float64.isNaN]
  exact lt_of_le_of_ne h (Ne.symm hne)

theorem Float64.revLE_of_lt {x y : Float64 α} (h : Float64.lt y x = true) :
    Float64.revLE x y := by
  cases x <;> cases y <;> simp_all [Float64.revLE, Float64.less, Float64.lt, Float64.isNaN]
  exact le_of_lt h

/-- The loop of lines 83-87 in closed form: the indices found in
`flipScoreMap` for the scores `scoreValues[i .. i + n - 1]`, in that order. -/
theorem tossLoop_eq (scoreValues : List (Float64 α))
    (flipScoreMap : List (Float64 α × Nat)) (n i : Nat) (acc : List Nat)
    (hlen : i + n ≤ scoreValues.length) :
    tossLoop scoreValues flipScoreMap n i acc
      = .ok (acc ++ ((scoreValues.drop i).take n).filterMap
          (mapLookup Float64.eq flipScoreMap)) := by
  induction n generalizing i acc with
  | zero => simp [tossLoop]
  | succ n ih =>
    have hi : i < scoreValues.length := by omega
    have hget : scoreValues[i]? = some scoreValues[i] := List.getElem?_eq_getElem hi
    rw [List.drop_eq_getElem_cons hi, List.take_succ_cons, List.filterMap_cons]
    cases hlk : mapLookup Float64.eq flipScoreMap scoreValues[i] with
    | none =>
      simp only [tossLoop, hget, hlk]
      exact ih (i + 1) acc (by omega)
    | some idx =>
      simp only [tossLoop, hget, hlk]
      rw [ih (i + 1) (acc ++ [idx]) (by omega)]
      simp

/-- The result of `Tossing` in closed form, for every visiting order of the
two `range` loops. -/
theorem Tossing_eq (scores : List (Float64 α)) (top : Int) (ord₁ ord₂ : List Nat)
    (h₁ : RangeOrder scores.length ord₁) :
    Tossing scores top ord₁ ord₂
      = .ok (((sortReverse scores).take (min top.toNat scores.length)).filterMap
          (mapLookup Float64.eq
            (buildFlipScoreMap (rangeVisit (buildScoreMap scores) ord₂)))) := by
  have hsv : sortReverse ((rangeVisit (buildScoreMap scores) ord₁).map Prod.snd)
      = sortReverse scores :=
    sortReverse_unique ((sortReverse_perm _).trans (rangeVisit_scoreMap_perm scores h₁))
      (sortReverse_sorted _)
  have htop : (if (scores.length : Int) < top then (scores.length : Int) else top).toNat
      = min top.toNat scores.length := by
    split <;> omega
  unfold Tossing
  simp only []
  rw [hsv, htop, tossLoop_eq _ _ _ _ _ (by
    rw [(sortReverse_perm scores).length_eq]; omega)]
  simp

theorem foldl_flip_of_fresh (visited : List (Nat × Float64 α)) (acc : List (Float64 α × Nat))
    (hnd : (acc.map Prod.fst ++ visited.map Prod.snd).Nodup) :
    visited.foldl (fun m e => mapAssign Float64.eq m e.2 e.1) acc
      = acc ++ visited.map (fun e => (e.2, e.1)) := by
  induction visited generalizing acc with
  | nil => simp
  | cons e visited ih =>
    have hfresh : ∀ x ∈ acc, Float64.eq x.1 e.2 = false := by
      intro x hx
      cases hxe : Float64.eq x.1 e.2
      · rfl
      · exfalso
        have hmem : e.2 ∈ acc.map Prod.fst :=
          Float64.eq_of_eq_true hxe ▸ List.mem_map_of_mem Prod.fst hx
        have := (List.nodup_append.1 hnd).2.2
        exact this hmem (by simp)
    rw [List.foldl_cons, mapAssign_of_fresh _ _ _ _ hfresh, ih]
    · simp
    · have : (acc ++ [(e.2, e.1)]).map Prod.fst ++ visited.map Prod.snd
          = acc.map Prod.fst ++ (e :: visited).map Prod.snd := by simp
      rw [this]; exact hnd

theorem mapLookup_of_mem (l : List (Float64 α × Nat)) (s : Float64 α) (i : Nat)
    (hs : s.isNaN = false) (hnd : (l.map Prod.fst).Nodup) (hmem : (s, i) ∈ l) :
    mapLookup Float64.eq l s = some i := by
  induction l with
  | nil => cases hmem
  | cons e l ih =>
    obtain ⟨k, v⟩ := e
    rw [List.map_cons, List.nodup_cons] at hnd
    rcases List.mem_cons.1 hmem with h | h
    · cases h
      simp [mapLookup, Float64.eq_self_of_not_isNaN hs]
    · have hks : Float64.eq k s = false := by
        cases hks : Float64.eq k s
        · rfl
        · exfalso
          have := Float64.eq_of_eq_true hks
          subst this
          exact hnd.1 (List.mem_map.2 ⟨(k, i), h, rfl⟩)
      simp only [mapLookup, hks, Bool.false_eq_true, if_false]
      exact ih hnd.2 h

/-- With pairwise distinct scores, none of them NaN, every score is a key of
`flipScoreMap`, and its value is the one index that has the score. -/
theorem flipScoreMap_lookup (scores : List (Float64 α)) (ord : List Nat)
    (h : RangeOrder scores.length ord) (hnan : ∀ s ∈ scores, s.isNaN = false)
    (hnd : scores.Nodup) (s : Float64 α) (hs : s ∈ scores) :
    mapLookup Float64.eq (buildFlipScoreMap (rangeVisit (buildScoreMap scores) ord)) s
      = some (scores.indexOf s) := by
  have hvals := rangeVisit_scoreMap_perm scores h
  have hvis : (rangeVisit (buildScoreMap scores) ord).Perm scores.enum := by
    rw [buildScoreMap_eq]
    exact rangeVisit_perm (by rw [List.enum_length]; exact h)
  have hflip : buildFlipScoreMap (rangeVisit (buildScoreMap scores) ord)
      = (rangeVisit (buildScoreMap scores) ord).map (fun e => (e.2, e.1)) := by
    unfold buildFlipScoreMap
    rw [foldl_flip_of_fresh _ [] (by simpa using hvals.nodup_iff.2 hnd)]
    simp
  rw [hflip]
  apply mapLookup_of_mem _ _ _ (hnan s hs)
  · rw [List.map_map]
    exact hvals.nodup_iff.2 hnd
  · refine List.mem_map.2 ⟨(scores.indexOf s, s), hvis.symm.subset ?_, rfl⟩
    have hlt : scores.indexOf s < scores.length := List.indexOf_lt_length.2 hs
    rw [List.mk_mem_enum_iff_getElem?, List.getElem?_eq_getElem hlt]
    exact congrArg some (List.getElem_indexOf hlt)

omit [LinearOrder α] in
theorem map_indexOf_self [DecidableEq α] (scores : List (Float64 α)) (hnd : scores.Nodup) :
    scores.map (fun s => scores.indexOf s) = List.range scores.length := by
  apply List.ext_getElem
  · simp
  · intro i h₁ h₂
    rw [List.getElem_map, List.getElem_range]
    exact List.indexOf_getElem hnd i (by simpa using h₁)

omit [LinearOrder α] in
theorem map_scoreAt_range (scores : List (Float64 α)) :
    (List.range scores.length).map (scoreAt scores) = scores := by
  apply List.ext_getElem
  · simp
  · intro i h₁ h₂
    rw [List.getElem_map, List.getElem_range]
    exact List.getD_eq_getElem _ _ h₂

omit [LinearOrder α] in
theorem scoreAt_indexOf [DecidableEq α] (scores : List (Float64 α)) (s : Float64 α)
    (hs : s ∈ scores) : scoreAt scores (scores.indexOf s) = s := by
  unfold scoreAt
  rw [List.getD_eq_getElem _ _ (List.indexOf_lt_length.2 hs)]
  exact List.getElem_indexOf _

/-- C18: for every score vector whose scores are pairwise distinct and not
NaN, every `K` and every visiting order of the two `range` loops, there is
one permutation `π` of `0 .. N - 1` that lists the indices by strictly
decreasing score, and `Tossing(scores, K)` returns the first `min(K, N)`
entries of it (none when `K < 0`); the returned indices are below `N` and
pairwise distinct. -/
theorem Tossing_distinct (scores : List (Float64 α)) (top : Int) (ord₁ ord₂ : List Nat)
    (hnan : ∀ s ∈ scores, s.isNaN = false) (hnd : scores.Nodup)
    (h₁ : RangeOrder scores.length ord₁) (h₂ : RangeOrder scores.length ord₂) :
    ∃ π : List Nat,
      π.Perm (List.range scores.length) ∧
      StrictlyDescending scores π ∧
      (∀ π' : List Nat, π'.Perm (List.range scores.length) →
        StrictlyDescending scores π' → π' = π) ∧
      Tossing scores top ord₁ ord₂ = .ok (π.take (min top.toNat scores.length)) ∧
      (∀ i ∈ π.take (min top.toNat scores.length), i < scores.length) ∧
      (π.take (min top.toNat scores.length)).Nodup := by
  have hsv := sortReverse_perm scores
  have hπ : ((sortReverse scores).map (fun s => scores.indexOf s)).Perm
      (List.range scores.length) := by
    rw [← map_indexOf_self scores hnd]
    exact hsv.map _
  have hback : ((sortReverse scores).map (fun s => scores.indexOf s)).map (scoreAt scores)
      = sortReverse scores := by
    rw [List.map_map]
    conv_rhs => rw [← List.map_id (sortReverse scores)]
    apply List.map_congr_left
    intro s hs
    exact scoreAt_indexOf scores s (hsv.subset hs)
  refine ⟨(sortReverse scores).map (fun s => scores.indexOf s), hπ, ?_, ?_, ?_, ?_, ?_⟩
  · have hstrict : (sortReverse scores).Pairwise (fun a b => Float64.lt b a = true) := by
      have hs : (sortReverse scores).Pairwise Float64.revLE := sortReverse_sorted scores
      have hne : (sortReverse scores).Pairwise (fun a b => a ≠ b) := hsv.nodup_iff.2 hnd
      refine (hs.and hne).imp_of_mem ?_
      intro a b ha hb hab
      exact Float64.lt_of_revLE_of_ne (hnan a (hsv.subset ha)) (hnan b (hsv.subset hb))
        hab.1 hab.2
    unfold StrictlyDescending
    rw [← hback] at hstrict
    exact List.pairwise_map.1 hstrict
  · intro π' hperm hdesc
    have hvals : (π'.map (scoreAt scores)).Perm scores := by
      have := hperm.map (scoreAt scores)
      rwa [map_scoreAt_range] at this
    have hsorted : (π'.map (scoreAt scores)).Sorted Float64.revLE := by
      unfold StrictlyDescending at hdesc
      exact List.pairwise_map.2 (hdesc.imp (fun h => Float64.revLE_of_lt h))
    have hsame := sortReverse_unique hvals hsorted
    rw [← hsame, List.map_map]
    conv_lhs => rw [← List.map_id π']
    apply List.map_congr_left
    intro i hi
    have hlt : i < scores.length := List.mem_range.1 (hperm.subset hi)
    simp only [id, Function.comp, scoreAt]
    rw [List.getD_eq_getElem _ _ hlt]
    exact (List.indexOf_getElem hnd i hlt).symm
  · rw [Tossing_eq scores top ord₁ ord₂ h₁, ← List.map_take]
    congr 1
    rw [← List.filterMap_eq_map]
    apply List.filterMap_congr
    intro s hs
    exact flipScoreMap_lookup scores ord₂ h₂ hnan hnd s
      (hsv.subset (List.mem_of_mem_take hs))
  · intro i hi
    exact List.mem_range.1 (hπ.subset (List.mem_of_mem_take hi))
  · exact (hπ.nodup_iff.2 (List.nodup_range _)).sublist (List.take_sublist _ _)

/-- The theorem `Tossing_distinct` at the scores `[3, 9, 5, 1]` and `K = 3`,
where it gives `[1, 2, 0]`. -/
theorem Tossing_distinct_witness :
    (∀ s ∈ [Float64.val (3 : ℚ), .val 9, .val 5, .val 1], s.isNaN = false) ∧
    [Float64.val (3 : ℚ), .val 9, .val 5, .val 1].Nodup ∧
    Tossing [Float64.val (3 : ℚ), .val 9, .val 5, .val 1] 3 [0, 1, 2, 3] [3, 1, 0, 2]
      = .ok [1, 2, 0] ∧
    ∃ π : List Nat,
      π.Perm (List.range [Float64.val (3 : ℚ), .val 9, .val 5, .val 1].length) ∧
      StrictlyDescending [Float64.val (3 : ℚ), .val 9, .val 5, .val 1] π ∧
      (∀ π' : List Nat,
        π'.Perm (List.range [Float64.val (3 : ℚ), .val 9, .val 5, .val 1].length) →
        StrictlyDescending [Float64.val (3 : ℚ), .val 9, .val 5, .val 1] π' → π' = π) ∧
      Tossing [Float64.val (3 : ℚ), .val 9, .val 5, .val 1] 3 [0, 1, 2, 3] [3, 1, 0, 2]
        = .ok (π.take (min (3 : Int).toNat
            [Float64.val (3 : ℚ), .val 9, .val 5, .val 1].length)) ∧
      (∀ i ∈ π.take (min (3 : Int).toNat
          [Float64.val (3 : ℚ), .val 9, .val 5, .val 1].length),
        i < [Float64.val (3 : ℚ), .val 9, .val 5, .val 1].length) ∧
      (π.take (min (3 : Int).toNat
        [Float64.val (3 : ℚ), .val 9, .val 5, .val 1].length)).Nodup :=
  ⟨by decide, by decide, by decide,
    Tossing_distinct [Float64.val (3 : ℚ), .val 9, .val 5, .val 1] 3 [0, 1, 2, 3] [3, 1, 0, 2]
      (by decide) (by decide) (by decide) (by decide)⟩

end TossingDistinct

/-! ## Lemmas: float64 loop variables and slices -/

section FloatLoops

/-- The float64 constants `0.10`, `0.90` and `1.00`, in units of `2^-56`:
`0x3FB999999999999A`, `0x3FECCCCCCCCCCCCD` and `0x3FF0000000000000`. -/
theorem f64Lit_values :
    f64Lit 1 10 = 0x1999999999999A ∧ f64Lit 9 10 = 0x1CCCCCCCCCCCCD * 8 ∧
    f64Lit 1 1 = 2 ^ 56 := by
  decide

/-- The loop of line 12 runs nine rounds: the ninth value of `i`,
0.8999999999999999, is below the float64 of `0.90`. -/
theorem johnFoldFractions_eq :
    johnFoldFractions =
      [7205759403792794, 14411518807585588, 21617278211378384, 28823037615171176,
       36028797018963968, 43234556422756760, 50440315826549552, 57646075230342344,
       64851834634135136] := by
  decide

/-- A loop that stops before its bound on the number of rounds is reached
takes the same values under every larger bound. -/
theorem floatLoopValues_stable (cond : Nat → Bool) (step : Nat) (fuel i : Nat)
    (h : (floatLoopValues cond step fuel i).length < fuel) (k : Nat) :
    floatLoopValues cond step (fuel + k) i = floatLoopValues cond step fuel i := by
  induction fuel generalizing i with
  | zero => simp at h
  | succ fuel ih =>
    rw [Nat.add_right_comm]
    by_cases hc : cond i = true
    · have h' : (floatLoopValues cond step fuel (f64Add i step)).length < fuel := by
        simpa [floatLoopValues, hc] using h
      simp only [floatLoopValues, hc, if_true]
      rw [ih _ h']
    · simp [floatLoopValues, hc]

/-- The bound of 16 rounds in `johnFoldFractions` and `tenFoldFractions` is
never reached: the loops stop by their conditions. -/
theorem foldFractions_stable (k : Nat) :
    floatLoopValues (fun i => decide (i < f64Lit 9 10)) (f64Lit 1 10) (16 + k) (f64Lit 1 10)
      = johnFoldFractions ∧
    floatLoopValues (fun i => decide (i ≤ f64Lit 1 1)) (f64Lit 1 10) (16 + k) (f64Lit 1 10)
      = tenFoldFractions :=
  ⟨floatLoopValues_stable _ _ 16 _ (by decide) k, floatLoopValues_stable _ _ 16 _ (by decide) k⟩

theorem sliceOf_ok {β : Type} {xs r : List β} {lo hi : Int} (h : sliceOf xs lo hi = .ok r) :
    0 ≤ lo ∧ lo ≤ hi ∧ hi ≤ (xs.length : Int) ∧
    r = (xs.drop lo.toNat).take (hi.toNat - lo.toNat) := by
  unfold sliceOf at h
  split at h
  · rename_i hb
    exact ⟨hb.1, hb.2.1, hb.2.2, (Except.ok.inj h).symm⟩
  · cases h

theorem length_overwriteAt {β : Type} (array : List β) (pos : Nat) (src : List β)
    (h : pos + src.length ≤ array.length) :
    (overwriteAt array pos src).length = array.length := by
  simp only [overwriteAt, List.length_append, List.length_take, List.length_drop]
  omega

end FloatLoops

/-! ## Lemmas: the loops of the three strategies -/

section StrategyLemmas

variable {σ μ : Type}

theorem sliceOf_tail {β : Type} {xs tail : List β} {lo : Int}
    (h : sliceOf xs lo (xs.length : Int) = .ok tail) :
    0 ≤ lo ∧ lo ≤ (xs.length : Int) ∧ tail = xs.drop lo.toNat := by
  obtain ⟨h₀, h₁, _, hr⟩ := sliceOf_ok h
  refine ⟨h₀, h₁, ?_⟩
  rw [hr, Int.toNat_ofNat, List.take_of_length_le]
  rw [List.length_drop]

theorem scoreSum_append (start : Float64 ℚ) (cs ds : List (FoldCall σ μ)) :
    scoreSum start (cs ++ ds) = scoreSum (scoreSum start cs) ds := by
  simp [scoreSum, List.foldl_append]

/-- The loop of `JohnFold`, when it returns: one call a loop value, each as
lines 13-14 make it, the classifier handed from call to call, the scores
summed in order. -/
theorem johnFoldLoop_ok (h : Helpers) (m : Model σ μ) (issues : List ExpandedIssue)
    (fractions : List Nat) (s : σ) (finalScore : Float64 ℚ) (calls : List (FoldCall σ μ))
    (s' : σ) (finalScore' : Float64 ℚ) (calls' : List (FoldCall σ μ))
    (hrun : johnFoldLoop h m issues fractions s finalScore calls
      = .ok (s', finalScore', calls')) :
    ∃ new : List (FoldCall σ μ), calls' = calls ++ new ∧
      new.map (fun c => c.fraction) = fractions ∧
      (∀ c ∈ new, JohnCall h m issues c) ∧
      StateChain s new ∧
      finalScore' = scoreSum finalScore new := by
  induction fractions generalizing s finalScore calls with
  | nil =>
    simp only [johnFoldLoop] at hrun
    have := Except.ok.inj hrun
    simp only [Prod.mk.injEq] at this
    exact ⟨[], by simp [this.2.2], rfl, by simp, trivial, by simp [scoreSum, this.2.1]⟩
  | cons i rest ih =>
    simp only [johnFoldLoop] at hrun
    cases htrain : sliceOf issues 0 (h.splitIndex i issues.length) with
    | error e => rw [htrain] at hrun; cases hrun
    | ok train =>
      rw [htrain] at hrun
      simp only [] at hrun
      cases htest : sliceOf issues (h.splitIndex i issues.length) issues.length with
      | error e => rw [htest] at hrun; cases hrun
      | ok test =>
        rw [htest] at hrun
        simp only [] at hrun
        cases hfold : FoldImplementation m s train test with
        | error e => rw [hfold] at hrun; cases hrun
        | ok res =>
          rw [hfold] at hrun
          simp only [] at hrun
          obtain ⟨new, hcalls, hfr, hall, hchain, hsum⟩ := ih _ _ _ hrun
          obtain ⟨_, h₀, h₁, htr⟩ := sliceOf_ok htrain
          obtain ⟨_, _, hte⟩ := sliceOf_tail htest
          refine ⟨
            { fraction := i, lo := 0, hi := h.splitIndex i issues.length, before := issues,
              after := issues, state := s, train := train, test := test, result := res } :: new,
            by rw [hcalls]; simp, by simp [hfr], ?_, ⟨rfl, hchain⟩, ?_⟩
          · intro c hc
            rcases List.mem_cons.1 hc with rfl | hc
            · refine ⟨rfl, rfl, h₀, h₁, rfl, rfl, ?_, hte, hfold⟩
              simpa using htr
            · exact hall c hc
          · rw [hsum]; rfl

/-- The loop of `TenFold`, when it returns: one call a loop value, each as
lines 44-48 make it, the array and the bound handed from round to round, the
classifier handed from call to call, the scores summed in order. -/
theorem tenFoldLoop_ok (h : Helpers) (m : Model σ μ) (fractions : List Nat)
    (array : List ExpandedIssue) (start : Int) (s : σ) (finalScore : Float64 ℚ)
    (calls : List (FoldCall σ μ)) (array' : List ExpandedIssue) (s' : σ)
    (finalScore' : Float64 ℚ) (calls' : List (FoldCall σ μ))
    (hrun : tenFoldLoop h m fractions array start s finalScore calls
      = .ok (array', s', finalScore', calls')) :
    ∃ new : List (FoldCall σ μ), calls' = calls ++ new ∧
      new.map (fun c => c.fraction) = fractions ∧
      (∀ c ∈ new, TenCall h m array.length c) ∧
      ArrayChain array start new ∧
      StateChain s new ∧
      finalScore' = scoreSum finalScore new := by
  induction fractions generalizing array start s finalScore calls with
  | nil =>
    simp only [tenFoldLoop] at hrun
    have := Except.ok.inj hrun
    simp only [Prod.mk.injEq] at this
    exact ⟨[], by simp [this.2.2.2], rfl, by simp, trivial, trivial,
      by simp [scoreSum, this.2.2.1]⟩
  | cons i rest ih =>
    simp only [tenFoldLoop] at hrun
    cases hseg : sliceOf array start (h.splitIndex i array.length) with
    | error e => rw [hseg] at hrun; cases hrun
    | ok seg =>
      rw [hseg] at hrun
      simp only [] at hrun
      cases htail : sliceOf array (h.splitIndex i array.length) array.length with
      | error e => rw [htail] at hrun; cases hrun
      | ok tail =>
        rw [htail] at hrun
        simp only [] at hrun
        obtain ⟨h₀, h₁, h₂, _⟩ := sliceOf_ok hseg
        obtain ⟨_, _, hte⟩ := sliceOf_tail htail
        subst hte
        have hlen : (overwriteAt array start.toNat
            (array.drop (h.splitIndex i array.length).toNat)).length = array.length := by
          apply length_overwriteAt
          rw [List.length_drop]
          omega
        have htake : (overwriteAt array start.toNat
            (array.drop (h.splitIndex i array.length).toNat)).take
              (start.toNat + (array.drop (h.splitIndex i array.length).toNat).length)
            = array.take start.toNat ++ array.drop (h.splitIndex i array.length).toNat := by
          have hl : (array.take start.toNat ++
              array.drop (h.splitIndex i array.length).toNat).length
              = start.toNat + (array.drop (h.splitIndex i array.length).toNat).length := by
            rw [List.length_append, List.length_take, Nat.min_eq_left (by omega)]
          unfold overwriteAt
          rw [← hl, List.take_left']
          rfl
        rw [htake] at hrun
        cases hfold : FoldImplementation m s
            ((List.drop start.toNat (overwriteAt array start.toNat
              (array.drop (h.splitIndex i array.length).toNat))).take
                ((h.splitIndex i array.length).toNat - start.toNat))
            (array.take start.toNat ++ array.drop (h.splitIndex i array.length).toNat) with
        | error e => rw [hfold] at hrun; cases hrun
        | ok res =>
          rw [hfold] at hrun
          simp only [] at hrun
          obtain ⟨new, hcalls, hfr, hall, hachain, hchain, hsum⟩ := ih _ _ _ _ _ hrun
          refine ⟨
            { fraction := i, lo := start, hi := h.splitIndex i array.length,
              before := array,
              after := overwriteAt array start.toNat
                (array.drop (h.splitIndex i array.length).toNat),
              state := s,
              train := (List.drop start.toNat (overwriteAt array start.toNat
                (array.drop (h.splitIndex i array.length).toNat))).take
                  ((h.splitIndex i array.length).toNat - start.toNat),
              test := array.take start.toNat ++ array.drop (h.splitIndex i array.length).toNat,
              result := res } :: new,
            by rw [hcalls]; simp, by simp [hfr], ?_, ⟨rfl, rfl, hachain⟩, ⟨rfl, hchain⟩, ?_⟩
          · intro c hc
            rcases List.mem_cons.1 hc with rfl | hc
            · exact ⟨rfl, hlen, rfl, h₀, h₁, h₂, rfl, rfl, rfl, hfold⟩
            · have := hall c hc
              rwa [hlen] at this
          · rw [hsum]; rfl

end StrategyLemmas

/-! ## Properties of `JohnFold` and `TwoFold` -/

section JohnTwoClaims

variable {σ μ : Type}

/-- C13 (as stated, refuted): `JohnFold` runs nine folds, not eight.  The
float64 loop variable, started at 0.10 and raised by 0.10 a round, is
0.8999999999999999 in its ninth round, which is below the float64 of 0.90. -/
theorem JohnFold_not_eight_folds :
    johnFoldFractions.length = 9 ∧
    johnFoldFractions.getLast? = some 64851834634135136 ∧
    64851834634135136 < f64Lit 9 10 ∧
    ∃ run, JohnFold specHelpers sampleModel () tenRecords = .ok run ∧
      run.calls.length = 9 ∧ run.calls.length ≠ 8 :=
  ⟨by decide, by decide, by decide, _, rfl, rfl, by decide⟩

/-- C13 (amended): `JohnFold` runs one fold for each value of its float64
loop variable, which are the nine values of `johnFoldFractions` (0.1, 0.2,
0.30000000000000004, 0.4, 0.5, 0.6, 0.7, 0.7999999999999999 and
0.8999999999999999).  The fold of the value `f` is trained on the first
`int(Round(f * N))` records and tested on the remaining ones (`JohnCall`), in
the state the fold before left the classifier in.  The argument of the final
`Round` is the sum of the nine fold scores divided by 9, the number of folds
the loop runs. -/
theorem JohnFold_nine_folds (h : Helpers) (m : Model σ μ) (s : σ)
    (issues : List ExpandedIssue) (run : FoldRun σ μ)
    (hrun : JohnFold h m s issues = .ok run) :
    run.calls.map (fun c => c.fraction) = johnFoldFractions ∧
    run.calls.length = 9 ∧
    (∀ c ∈ run.calls, JohnCall h m issues c) ∧
    StateChain s run.calls ∧
    run.finalScore = scoreSum (Float64.val 0) run.calls ∧
    run.average = Float64.divConst run.finalScore 9 ∧
    (9 : ℚ) = (run.calls.length : ℚ) ∧
    run.output = h.ToString (h.Round run.average) := by
  unfold JohnFold at hrun
  cases hloop : johnFoldLoop h m issues johnFoldFractions s (Float64.val 0) [] with
  | error e => rw [hloop] at hrun; cases hrun
  | ok out =>
    obtain ⟨s', finalScore, calls⟩ := out
    rw [hloop] at hrun
    obtain ⟨new, hcalls, hfr, hall, hchain, hsum⟩ := johnFoldLoop_ok h m issues _ _ _ _ _ _ _ hloop
    rw [List.nil_append] at hcalls
    subst hcalls
    have hlen : calls.length = 9 := by
      have := congrArg List.length hfr
      rw [List.length_map] at this
      rw [this]
      decide
    rw [← Except.ok.inj hrun]
    refine ⟨hfr, hlen, hall, hchain, hsum, rfl, ?_, rfl⟩
    simp only [hlen]
    norm_num

/-- The theorem `JohnFold_nine_folds` at `sampleModel` and `tenRecords`, on
which `JohnFold` returns. -/
theorem JohnFold_nine_folds_witness :
    ∃ run, JohnFold specHelpers sampleModel () tenRecords = .ok run ∧
      run.calls.map (fun c => c.fraction) = johnFoldFractions ∧
      run.calls.length = 9 ∧
      run.average = Float64.divConst run.finalScore 9 := by
  have hex : ∃ run, JohnFold specHelpers sampleModel () tenRecords = .ok run := ⟨_, rfl⟩
  obtain ⟨run, hrun⟩ := hex
  have key := JohnFold_nine_folds specHelpers sampleModel () tenRecords run hrun
  exact ⟨run, hrun, key.1, key.2.1, key.2.2.2.2.2.1⟩

end JohnTwoClaims

/-! ## Properties of `TenFold` -/

section TenFoldClaims

variable {σ μ : Type}

/-- A run of `TenFold` that returns, round by round. -/
theorem TenFold_trace (h : Helpers) (m : Model σ μ) (s : σ) (issues : List ExpandedIssue)
    (run : FoldRun σ μ) (hrun : TenFold h m s issues = .ok run) :
    run.calls.map (fun c => c.fraction) = tenFoldFractions ∧
    (∀ c ∈ run.calls, TenCall h m issues.length c) ∧
    ArrayChain issues 0 run.calls ∧
    StateChain s run.calls ∧
    run.finalScore = scoreSum (Float64.val 0) run.calls ∧
    run.average = Float64.divConst run.finalScore 10 ∧
    run.output = h.ToString (h.Round run.average) := by
  unfold TenFold at hrun
  cases hloop : tenFoldLoop h m tenFoldFractions issues 0 s (Float64.val 0) [] with
  | error e => rw [hloop] at hrun; cases hrun
  | ok out =>
    obtain ⟨array', s', finalScore, calls⟩ := out
    rw [hloop] at hrun
    obtain ⟨new, hcalls, hfr, hall, hachain, hchain, hsum⟩ :=
      tenFoldLoop_ok h m _ _ _ _ _ _ _ _ _ _ hloop
    rw [List.nil_append] at hcalls
    subst hcalls
    rw [← Except.ok.inj hrun]
    exact ⟨hfr, hall, hachain, hchain, hsum, rfl, rfl⟩

theorem TenFold_calls_length (h : Helpers) (m : Model σ μ) (s : σ)
    (issues : List ExpandedIssue) (run : FoldRun σ μ)
    (hrun : TenFold h m s issues = .ok run) : run.calls.length = 10 := by
  have := congrArg List.length (TenFold_trace h m s issues run hrun).1
  rw [List.length_map] at this
  rw [this]
  decide

/-- C15 (as stated, refuted): in the first round of `TenFold` on ten records
the test set handed to `FoldImplementation` has nine records, not the one
record of the first decile, and the training set has one record, not the
other nine. -/
theorem TenFold_first_round_roles :
    ∃ run, TenFold specHelpers sampleModel () tenRecords = .ok run ∧
      run.calls.head?.map (fun c => (c.lo, c.hi, c.train.length, c.test.length))
        = some (0, 1, 1, 9) :=
  ⟨_, rfl, by decide⟩

/-- C15 (amended): `TenFold` runs ten rounds, and in every one of them the
slice of the current decile, `issues[start:end]`, is handed to
`FoldImplementation` as its first argument, the training set, and the other
records, `issues[:start]` followed by `issues[end:]`, as its second, the test
set: `end - start` records for training and the other `N - (end - start)`
for testing.  In the first round the test set is the input without its first
decile. -/
theorem TenFold_roles (h : Helpers) (m : Model σ μ) (s : σ) (issues : List ExpandedIssue)
    (run : FoldRun σ μ) (hrun : TenFold h m s issues = .ok run) :
    run.calls.length = 10 ∧
    (∀ c ∈ run.calls,
      0 ≤ c.lo ∧ c.lo ≤ c.hi ∧ c.hi ≤ (issues.length : Int) ∧
      c.train = (c.after.drop c.lo.toNat).take (c.hi.toNat - c.lo.toNat) ∧
      c.train.length = c.hi.toNat - c.lo.toNat ∧
      c.test = c.before.take c.lo.toNat ++ c.before.drop c.hi.toNat ∧
      c.test.length = issues.length - (c.hi.toNat - c.lo.toNat) ∧
      FoldImplementation m c.state c.train c.test = .ok c.result) ∧
    (∀ c, run.calls.head? = some c →
      c.lo = 0 ∧ c.before = issues ∧ c.test = issues.drop c.hi.toNat) := by
  obtain ⟨_, hall, hachain, _⟩ := TenFold_trace h m s issues run hrun
  refine ⟨TenFold_calls_length h m s issues run hrun, ?_, ?_⟩
  · intro c hc
    obtain ⟨hb, ha, _, h₀, h₁, h₂, _, htrain, htest, hfold⟩ := hall c hc
    refine ⟨h₀, h₁, h₂, htrain, ?_, htest, ?_, hfold⟩
    · rw [htrain, List.length_take, List.length_drop, ha]
      omega
    · rw [htest, List.length_append, List.length_take, List.length_drop, hb]
      omega
  · intro c hc
    cases hcalls : run.calls with
    | nil => rw [hcalls] at hc; cases hc
    | cons c' rest =>
      rw [hcalls] at hc hachain hall
      cases Option.some.inj hc
      obtain ⟨hbefore, hlo, _⟩ := hachain
      have htest := (hall c (List.mem_cons_self _ _)).2.2.2.2.2.2.2.2.1
      refine ⟨hlo, hbefore, ?_⟩
      rw [htest, hlo, hbefore]
      simp

/-- The theorem `TenFold_roles` at `sampleModel` and `tenRecords`, on which
`TenFold` returns. -/
theorem TenFold_roles_witness :
    ∃ run, TenFold specHelpers sampleModel () tenRecords = .ok run ∧
      run.calls.length = 10 ∧
      (∀ c, run.calls.head? = some c →
        c.lo = 0 ∧ c.before = tenRecords ∧ c.test = tenRecords.drop c.hi.toNat) := by
  have hex : ∃ run, TenFold specHelpers sampleModel () tenRecords = .ok run := ⟨_, rfl⟩
  obtain ⟨run, hrun⟩ := hex
  have key := TenFold_roles specHelpers sampleModel () tenRecords run hrun
  exact ⟨run, hrun, key.1, key.2.2⟩

/-- C16: `TenFold` writes into the backing array of its input.  On ten
records the first round leaves the array as the records 1 to 9 followed by
record 9 once more, and after none of the ten rounds does the array hold the
input again. -/
theorem TenFold_overwrites_input :
    ∃ run, TenFold specHelpers sampleModel () tenRecords = .ok run ∧
      run.calls.head?.map (fun c => c.after)
        = some (tenRecords.drop 1 ++ [sampleRecord "b9" "u9"]) ∧
      run.calls.map (fun c => decide (c.after = tenRecords))
        = [false, false, false, false, false, false, false, false, false, false] :=
  ⟨_, rfl, by decide, by decide⟩

end TenFoldClaims

/-! ## Properties of the payload encoding -/

section PayloadClaims

theorem take_set_succ (buf : List Byte) (pos : Nat) (c : Byte) (h : pos < buf.length) :
    (buf.set pos c).take (pos + 1) = buf.take pos ++ [c] := by
  rw [List.set_eq_take_append_cons_drop, if_pos h]
  have hl : (buf.take pos ++ [c]).length = pos + 1 := by
    rw [List.length_append, List.length_take, Nat.min_eq_left (le_of_lt h)]
    rfl
  have : buf.take pos ++ c :: buf.drop (pos + 1)
      = (buf.take pos ++ [c]) ++ buf.drop (pos + 1) := by simp
  rw [this, List.take_left' hl]

/-- A write inside the slice goes through, keeps the length, and extends
the bytes written so far by the byte written. -/
theorem writeAt_ok (buf : List Byte) (pos : Nat) (c : Byte) (h : pos < buf.length) :
    ∃ buf', writeAt buf pos c = .ok buf' ∧ buf'.length = buf.length ∧
      buf'.take (pos + 1) = buf.take pos ++ [c] :=
  ⟨buf.set pos c, by simp [writeAt, h], List.length_set _ _ _, take_set_succ buf pos c h⟩

theorem writePair_ok (buf : List Byte) (pos : Nat) (x y : Byte) (h : pos + 2 ≤ buf.length) :
    ∃ buf', writePair buf pos x y = .ok (buf', pos + 2) ∧ buf'.length = buf.length ∧
      buf'.take (pos + 2) = buf.take pos ++ [x, y] := by
  obtain ⟨b₁, h₁, hl₁, ht₁⟩ := writeAt_ok buf pos x (by omega)
  obtain ⟨b₂, h₂, hl₂, ht₂⟩ := writeAt_ok b₁ (pos + 1) y (by omega)
  refine ⟨b₂, by simp only [writePair, h₁, h₂], by omega, ?_⟩
  rw [ht₂, ht₁]
  simp

/-- One round of the loop of `escapeBytesBackslash` with two free bytes
ahead: every write stays inside `buf`, and the bytes written so far grow by
`escapedByte c`. -/
theorem escapeStep_ok (buf : List Byte) (pos : Nat) (c : Byte) (h : pos + 2 ≤ buf.length) :
    ∃ buf', escapeStep buf pos c = .ok (buf', pos + (escapedByte c).length) ∧
      buf'.length = buf.length ∧
      buf'.take (pos + (escapedByte c).length) = buf.take pos ++ escapedByte c := by
  unfold escapeStep escapedByte
  split
  · exact writePair_ok buf pos _ _ h
  split
  · exact writePair_ok buf pos _ _ h
  split
  · exact writePair_ok buf pos _ _ h
  split
  · exact writePair_ok buf pos _ _ h
  split
  · exact writePair_ok buf pos _ _ h
  split
  · exact writePair_ok buf pos _ _ h
  split
  · exact writePair_ok buf pos _ _ h
  split
  · exact ⟨buf, rfl, rfl, by simp⟩
  · obtain ⟨b₁, h₁, hl₁, ht₁⟩ := writeAt_ok buf pos c (by omega)
    exact ⟨b₁, by simp only [h₁]; rfl, hl₁, ht₁⟩

theorem length_escapedByte_le (c : Byte) : (escapedByte c).length ≤ 2 := by
  unfold escapedByte
  repeat' split
  all_goals simp

theorem escapeLoop_ok (v buf : List Byte) (pos : Nat)
    (h : pos + 2 * v.length ≤ buf.length) :
    ∃ buf' pos', escapeLoop v buf pos = .ok (buf', pos') ∧ buf'.length = buf.length ∧
      pos' ≤ pos + 2 * v.length ∧
      buf'.take pos' = buf.take pos ++ (v.map escapedByte).flatten := by
  induction v generalizing buf pos with
  | nil => exact ⟨buf, pos, rfl, rfl, by simp, by simp⟩
  | cons c v ih =>
    rw [List.length_cons] at h
    obtain ⟨b₁, h₁, hl₁, ht₁⟩ := escapeStep_ok buf pos c (by omega)
    have hle := length_escapedByte_le c
    obtain ⟨b₂, pos₂, h₂, hl₂, hp₂, ht₂⟩ :=
      ih b₁ (pos + (escapedByte c).length) (by omega)
    refine ⟨b₂, pos₂, by simp only [escapeLoop, h₁]; exact h₂, by omega, ?_, ?_⟩
    · rw [List.length_cons]; omega
    · rw [ht₂, ht₁]
      simp

/-- The function `escapeBytesBackslash` returns for every input: no write
leaves the buffer of `2*len(v)` bytes.  It returns the escaped bytes of `v`
one after the other. -/
theorem escapeBytesBackslash_eq (v : List Byte) :
    escapeBytesBackslash v = .ok (v.map escapedByte).flatten := by
  obtain ⟨buf, pos, h₁, hl, hp, ht⟩ :=
    escapeLoop_ok v (List.replicate (2 * v.length) 0) 0 (by simp)
  rw [List.length_replicate] at hl
  unfold escapeBytesBackslash
  simp only [h₁]
  unfold sliceOf
  rw [if_pos ⟨le_refl _, by omega, by omega⟩]
  simp only [Int.toNat_zero, List.drop_zero, Int.toNat_ofNat, Nat.sub_zero, ht,
    List.take_zero, List.nil_append]

theorem stripLoop_ok (str b : List Byte) (bl : Nat) (h : bl + str.length ≤ b.length) :
    ∃ b' bl', stripLoop str b bl = .ok (b', bl') ∧ b'.length = b.length ∧
      bl' ≤ bl + str.length ∧
      b'.take bl' = b.take bl ++ str.filter (fun c => decide (c ≥ 32 ∧ c < 127)) := by
  induction str generalizing b bl with
  | nil => exact ⟨b, bl, rfl, rfl, by simp, by simp⟩
  | cons c str ih =>
    rw [List.length_cons] at h
    by_cases hc : c ≥ 32 ∧ c < 127
    · obtain ⟨b₁, h₁, hl₁, ht₁⟩ := writeAt_ok b bl c (by omega)
      obtain ⟨b₂, bl₂, h₂, hl₂, hp₂, ht₂⟩ := ih b₁ (bl + 1) (by omega)
      refine ⟨b₂, bl₂, by simp only [stripLoop, hc, and_self, if_true, h₁]; exact h₂,
        by omega, ?_, ?_⟩
      · rw [List.length_cons]; omega
      · rw [ht₂, ht₁, List.filter_cons_of_pos (by simpa using hc)]
        simp
    · obtain ⟨b₂, bl₂, h₂, hl₂, hp₂, ht₂⟩ := ih b bl (by omega)
      refine ⟨b₂, bl₂, by simp only [stripLoop, hc, if_false]; exact h₂, hl₂, ?_, ?_⟩
      · rw [List.length_cons]; omega
      · rw [ht₂, List.filter_cons_of_neg (by simpa using hc)]

/-- The function `stripCtlAndExtFromBytes` returns for every input, and
returns the bytes of `str` from 32 to 126, in order. -/
theorem stripCtlAndExtFromBytes_eq (str : List Byte) :
    stripCtlAndExtFromBytes str
      = .ok (str.filter (fun c => decide (c ≥ 32 ∧ c < 127))) := by
  obtain ⟨b, bl, h₁, hl, hp, ht⟩ :=
    stripLoop_ok str (List.replicate str.length 0) 0 (by simp)
  rw [List.length_replicate] at hl
  unfold stripCtlAndExtFromBytes
  simp only [h₁]
  unfold sliceOf
  rw [if_pos ⟨le_refl _, by omega, by omega⟩]
  simp only [Int.toNat_zero, List.drop_zero, Int.toNat_ofNat, Nat.sub_zero, ht,
    List.take_zero, List.nil_append]

theorem escapedByte_printable (c b : Nat) (hc : c ≥ 32 ∧ c < 127) (hb : b ∈ escapedByte c) :
    32 ≤ b ∧ b ≤ 125 := by
  obtain ⟨h₁, h₂⟩ := hc
  simp only [escapedByte, Byte] at hb
  repeat' split at hb
  all_goals simp only [List.mem_cons, List.mem_singleton, List.not_mem_nil, or_false] at hb
  all_goals omega

/-- C21: for every byte sequence `p`, the two functions return and
`escapeBytesBackslash(stripCtlAndExtFromBytes(p))` has only bytes from 32 to
126, none of them `~` (126) and none of them the line feed (10), so the
payload field never holds the field terminator or the line terminator; and
`escapeBytesBackslash` returns on every input `v`, with at most `2*len(v)`
bytes: none of its writes leaves its buffer of `2*len(v)` bytes. -/
theorem encodePayload_printable (p : List Byte) :
    (∃ stripped out, stripCtlAndExtFromBytes p = .ok stripped ∧
      escapeBytesBackslash stripped = .ok out ∧
      encodePayload p = .ok out ∧
      (∀ b ∈ out, 32 ≤ b ∧ b ≤ 126) ∧ 126 ∉ out ∧ 10 ∉ out) ∧
    (∀ v : List Byte, ∃ out, escapeBytesBackslash v = .ok out ∧
      out.length ≤ 2 * v.length) := by
  have hall : ∀ b : Nat,
      b ∈ ((p.filter (fun c => decide (c ≥ 32 ∧ c < 127))).map escapedByte).flatten →
      32 ≤ b ∧ b ≤ 125 := by
    intro b hb
    obtain ⟨l, hl, hbl⟩ := List.mem_flatten.1 hb
    obtain ⟨c, hc, rfl⟩ := List.mem_map.1 hl
    exact escapedByte_printable c b (by simpa using (List.mem_filter.1 hc).2) hbl
  constructor
  · refine ⟨_, _, stripCtlAndExtFromBytes_eq p, escapeBytesBackslash_eq _, ?_, ?_, ?_, ?_⟩
    · simp only [encodePayload, stripCtlAndExtFromBytes_eq, escapeBytesBackslash_eq]
    · intro b hb
      have := hall b hb
      exact ⟨this.1, le_trans this.2 (by decide)⟩
    · intro hmem
      exact absurd (hall 126 hmem).2 (by decide)
    · intro hmem
      exact absurd (hall 10 hmem).1 (by decide)
  · intro v
    refine ⟨_, escapeBytesBackslash_eq v, ?_⟩
    induction v with
    | nil => simp
    | cons c v ih =>
      have := length_escapedByte_le c
      simp only [List.map_cons, List.flatten_cons, List.length_append, List.length_cons]
      omega

end PayloadClaims

end CoralReef
